import Mathlib


/-!
Verification of the citation/bibliography transform pipeline
(`src/sphinxcontrib/bibtex/transforms.py`).

The docutils node tree is embedded shallowly: a node is either a text
fragment (`Node.text`, content as `List Char`, matching Python `str`
operations character by character) or an element carrying attributes and a
list of children.  Only the attributes read or written by the transforms
are modelled.
-/

/-- Attributes of a docutils element.  `tag` names the node class
(`reference`, `paragraph`, `label`, `target`, `enumerated_list`,
`bullet_list`, `citation`, ...); the remaining fields are the attributes
the transforms read or write (`refuri`, `backrefs`, `docname`,
`enumtype`, `start`, `support_smartquotes`). -/
structure Attrs where
  tag : String
  refuri : List Char := []
  backrefs : List String := []
  docname : String := ""
  enumtype : String := ""
  start : Int := 0
  support_smartquotes : Bool := true
deriving DecidableEq, Repr


/-- A docutils node: a text fragment or an element with children. -/
inductive Node where
  | text (s : List Char)
  | element (a : Attrs) (children : List Node)
deriving Repr


mutual
/-- Decidable equality on nodes. -/
def Node.decEq : (a b : Node) → Decidable (a = b)
  | .text s, .text t =>
    if h : s = t then .isTrue (by rw [h]) else .isFalse (by simp [h])
  | .text _, .element _ _ => .isFalse (by simp)
  | .element _ _, .text _ => .isFalse (by simp)
  | .element a cs, .element b ds =>
    if h : a = b then
      match Node.decEqList cs ds with
      | .isTrue h2 => .isTrue (by rw [h, h2])
      | .isFalse h2 => .isFalse (by simp [h2])
    else .isFalse (by simp [h])

/-- Decidable equality on lists of nodes. -/
def Node.decEqList : (cs ds : List Node) → Decidable (cs = ds)
  | [], [] => .isTrue rfl
  | [], _ :: _ => .isFalse (by simp)
  | _ :: _, [] => .isFalse (by simp)
  | c :: cs, d :: ds =>
    match Node.decEq c d, Node.decEqList cs ds with
    | .isTrue h1, .isTrue h2 => .isTrue (by rw [h1, h2])
    | .isFalse h1, _ => .isFalse (by simp [h1])
    | _, .isFalse h2 => .isFalse (by simp [h2])
end

instance : DecidableEq Node := Node.decEq


/-- The five-character escaped-URL marker `\url ` (raw string `r'\url '`
in `node_text_transform`). -/
def urlM : List Char := "\\url ".toList


/-- The eight-character escaped-italics marker `\textit ` scanned for by
`PybibtexNodeFormatter.run`. -/
def textitM : List Char := "\\textit ".toList


/-! ## Text Repair Pass A — link recovery (`node_text_transform`)

`node_text_transform` iterates over a snapshot of `node.children` in
adjacent pairs (`zip_longest(node.children[:], node.children[1:])`).  When
a text child ends with `\url ` and the next snapshot child is also text,
it calls `node.replace` twice: the marker text is replaced by its
five-character-stripped copy and the following text by a `reference` node
wrapping it.  docutils `Element.replace(old, new)` locates `old` with
`self.children.index(old)`, i.e. by equality against the current child
list (`Text` is a `str` subclass, so text nodes compare by string; an
element never equals a text), and raises `ValueError` when no child
matches; failure is modelled as `none`.  Recursion into element children
(line 39) only rewrites the interior of those elements and never touches
any text child of `node` itself, and the text replacements never touch an
element child, so the embedding performs the recursive calls first
(`nttList`) and then runs the pair loop (`nttTextLoop`); the two commute. -/

/-- `Element.replace(old, new)` where `old` is a text node: replace the
first child equal to the text `old` (elements never compare equal to a
text), or fail like `list.index` raising `ValueError`. -/
def replaceFirstText : List Node → List Char → Node → Option (List Node)
  | [], _, _ => none
  | .text s :: rest, old, new =>
    if s = old then some (new :: rest)
    else (replaceFirstText rest old new).map (.text s :: ·)
  | c :: rest, old, new => (replaceFirstText rest old new).map (c :: ·)


/-- The fresh `reference` node built for a repaired URL: its `refuri` is
`next_child.astext()` and its single child is `next_child` itself. -/
def refNode (u : List Char) : Node :=
  .element { tag := "reference", refuri := u } [.text u]


/-- Python `child[:-5]`: drop the five marker characters. -/
def stripUrl (s : List Char) : List Char := s.take (s.length - 5)


/-- The pair loop of `node_text_transform`: first argument is the suffix
of the snapshot still to be visited, second the current child list being
mutated.  A pair of adjacent snapshot texts whose first member ends with
`\url ` triggers the two replacements; every other pair is skipped.  The
recursive calls into child elements are handled separately by `ntt`. -/
def nttTextLoop : List Node → List Node → Option (List Node)
  | .text t :: .text u :: rest, cur =>
    if urlM.isSuffixOf t then do
      let cur1 ← replaceFirstText cur t (.text (stripUrl t))
      let cur2 ← replaceFirstText cur1 u (refNode u)
      nttTextLoop (.text u :: rest) cur2
    else nttTextLoop (.text u :: rest) cur
  | _ :: rest, cur => nttTextLoop rest cur
  | [], cur => some cur


mutual
/-- `node_text_transform` on one node: recurse into element children,
then run the adjacent-pair replacement loop over the children.  `none`
models a `ValueError` escaping from `Element.replace`. -/
def ntt : Node → Option Node
  | .text s => some (.text s)
  | .element a cs => do
    let cs1 ← nttList cs
    let cs2 ← nttTextLoop cs1 cs1
    pure (.element a cs2)

/-- `node_text_transform` applied to each child in order. -/
def nttList : List Node → Option (List Node)
  | [] => some []
  | c :: cs => do pure ((← ntt c) :: (← nttList cs))
end

/-! ## Text Repair Pass B — emphasis recovery (`PybibtexNodeFormatter.run`)

For each paragraph found below a citation node the formatter rebuilds the
paragraph's direct children in one pass: a text child ending with
`\textit ` has every occurrence of `\textit ` removed
(`ch.replace("\\textit ", "")`) and arms `next_wrap`; otherwise, if
`next_wrap` is armed, the child (of any kind) is wrapped in a fresh
`emphasis` node and `next_wrap` is cleared.  The pass does not recurse
into nested structures and never raises. -/

/-- Python `ch.replace("\\textit ", "")`: remove every occurrence of the
eight-character marker, scanning left to right and continuing after each
removed occurrence. -/
def removeTextit : List Char → List Char
  | '\\' :: 't' :: 'e' :: 'x' :: 't' :: 'i' :: 't' :: ' ' :: rest => removeTextit rest
  | c :: rest => c :: removeTextit rest
  | [] => []


/-- The fresh `emphasis` node wrapping a repaired child. -/
def emphNode (c : Node) : Node := .element { tag := "emphasis" } [c]


/-- The child-rebuilding loop of `PybibtexNodeFormatter.run`: the flag is
whether `next_wrap` is armed from the previous child. -/
def emphLoop : Bool → List Node → List Node
  | _, [] => []
  | w, .text t :: rest =>
    if textitM.isSuffixOf t then .text (removeTextit t) :: emphLoop true rest
    else if w then emphNode (.text t) :: emphLoop false rest
    else .text t :: emphLoop false rest
  | w, c :: rest =>
    if w then emphNode c :: emphLoop false rest else c :: emphLoop false rest


/-- The emphasis-recovery pass on one paragraph's direct children
(`next_wrap` starts as `None`). -/
def emphFix (cs : List Node) : List Node := emphLoop false cs


/-! ## The bibliography transform (`BibliographyTransform.run`)

Registry data (`BibliographyKey`, `Citation`, `CitationRef`,
`Bibliography`, the `cite` domain) lives in `directives.py` / `domain.py`;
only the fields read by `BibliographyTransform.run` are modelled.  The
pybtex docutils backend (`find_plugin('pybtex.backends', 'docutils')`) is
external: its `paragraph(formatted_entry)` renders the entry body into a
paragraph node, so a formatted entry is modelled at that interface as its
label plus the rendered inline children of that paragraph. -/

/-- Identifies one bibliography placeholder (`directives.BibliographyKey`):
the docname of the bibliography node and its first id. -/
structure BibliographyKey where
  docname : String
  id_ : String
deriving DecidableEq, Repr


/-- A formatted entry, at the pybtex backend interface: the label text and
the inline children that `backend.paragraph` wraps. -/
structure FormattedEntry where
  label : List Char
  body : List Node
deriving DecidableEq, Repr


/-- One recorded citation: the bibliography it belongs to, the entry key,
and the formatted entry. -/
structure Citation where
  bibliography_key : BibliographyKey
  key : String
  formatted_entry : FormattedEntry
deriving DecidableEq, Repr


/-- One in-text citation marker: its document, the id of the reference
node, and the set of keys it cites. -/
structure CitationRef where
  docname : String
  citation_ref_id : String
  keys : List String
deriving DecidableEq, Repr


/-- A bibliography record: list mode (`"enumerated"`, `"bullet"` or
`"citation"`), enumerated-list glyph type, requested start value (below 1
means continue the shared counter), and the pre-built per-key citation
nodes (attributes and existing children of each node). -/
structure Bibliography where
  list_ : String
  enumtype : String
  start : Int
  citation_nodes : String → Attrs × List Node


/-- The `cite` domain state read by the transform, plus the bibliography
header node (an element, split into attributes and children; `deepcopy`
of a pure value is the value itself). -/
structure BibtexDomain where
  citations : List Citation
  citation_refs : List CitationRef
  bibliographies : BibliographyKey → Bibliography
  header_attrs : Attrs
  header_children : List Node


/-- `self.backend.paragraph(citation.formatted_entry)` — the external
pybtex docutils backend's paragraph node for the entry body. -/
def backendParagraph (e : FormattedEntry) : Node :=
  .element { tag := "paragraph" } e.body


/-- `docutils.nodes.label('', label, support_smartquotes=False)`. -/
def labelNode (l : List Char) : Node :=
  .element { tag := "label", support_smartquotes := false } [.text l]


/-- The attributes of the fresh `enumerated_list` container. -/
def enumListAttrs (enumtype : String) (start : Int) : Attrs :=
  { tag := "enumerated_list", enumtype := enumtype, start := start }


/-- The citation node built for one citation (lines 85–103 of
`transforms.py`, before `node_text_transform` is applied): the pre-built
node from `bibliography.citation_nodes` gets the backend paragraph
appended (plus, in citation mode, the backrefs attribute when non-empty
and the label node), and its `docname` attribute set. -/
def buildCitationNode (refs : List CitationRef) (bib_key : BibliographyKey)
    (bib : Bibliography) (c : Citation) : Node :=
  let (ca, ccs) := bib.citation_nodes c.key
  if bib.list_ = "enumerated" ∨ bib.list_ = "bullet" then
    .element { ca with docname := bib_key.docname }
      (ccs ++ [backendParagraph c.formatted_entry])
  else
    let backrefs := (refs.filter fun r =>
      bib_key.docname = r.docname ∧ c.key ∈ r.keys).map (·.citation_ref_id)
    let ca1 := if backrefs ≠ [] then { ca with backrefs := backrefs } else ca
    .element { ca1 with docname := bib_key.docname }
      (ccs ++ [labelNode c.formatted_entry.label,
               backendParagraph c.formatted_entry])


/-- The per-citation loop (lines 84–107): build each citation node, apply
`node_text_transform` to it, collect the results in recorded order and
bump the shared `bibtex_enum_count` once per citation in enumerated mode. -/
def processCits (refs : List CitationRef) (bib_key : BibliographyKey)
    (bib : Bibliography) :
    List Citation → Option Int → Option (List Node × Option Int)
  | [], counter => some ([], counter)
  | c :: rest, counter => do
    let n ← ntt (buildCitationNode refs bib_key bib c)
    let counter1 := if bib.list_ = "enumerated" then counter.map (· + 1) else counter
    let (ns, cf) ← processCits refs bib_key bib rest counter1
    pure (n :: ns, cf)


/-- The body of `BibliographyTransform.run` for one bibliography node
(lines 65–113).  `counter` is `env.temp_data['bibtex_enum_count']`
(`none` when the key is absent).  In enumerated mode the visible start is
`bibliography.start` when at least 1 (and the counter is reset to it),
else the counter's value via `setdefault(..., 1)`.  With citations, the
placeholder is replaced by a deep copy of the bibliography header with
the container (or the flat citation nodes) appended; with none, by an
empty `target` node. -/
def processBib (refs : List CitationRef) (headerA : Attrs) (headerC : List Node)
    (bib_key : BibliographyKey) (bib : Bibliography) (cits : List Citation)
    (counter : Option Int) : Option (Node × Option Int) :=
  let enum := bib.list_ = "enumerated"
  let startVal : Int := if bib.start ≥ 1 then bib.start else counter.getD 1
  let counter1 : Option Int := if enum then some startVal else counter
  (processCits refs bib_key bib cits counter1).map fun (entries, counter2) =>
    let rendered : List Node :=
      if enum then [.element (enumListAttrs bib.enumtype startVal) entries]
      else if bib.list_ = "bullet" then [.element { tag := "bullet_list" } entries]
      else entries
    let node : Node :=
      if cits ≠ [] then .element headerA (headerC ++ rendered)
      else .element { tag := "target" } []
    (node, counter2)


/-- One iteration of the `findall(bibliography_node)` loop: look up the
bibliography record and the citations whose `bibliography_key` matches,
then process the node. -/
def runOne (dom : BibtexDomain) (bib_key : BibliographyKey)
    (counter : Option Int) : Option (Node × Option Int) :=
  processBib dom.citation_refs dom.header_attrs dom.header_children bib_key
    (dom.bibliographies bib_key)
    (dom.citations.filter fun c => c.bibliography_key == bib_key) counter


/-- `BibliographyTransform.run` over the bibliography nodes of one
document, in traversal order, threading `env.temp_data` between them. -/
def runAll (dom : BibtexDomain) :
    List BibliographyKey → Option Int → Option (List Node × Option Int)
  | [], counter => some ([], counter)
  | k :: ks, counter => do
    let (n, c1) ← runOne dom k counter
    let (ns, c2) ← runAll dom ks c1
    pure (n :: ns, c2)


/-! ## Analysis machinery

Predicates and shape descriptions used to state and prove properties of
the two repair passes.  These are not translations of source code. -/

/-- Nested induction principle for `Node`. -/
def Node.induct {P : Node → Prop} (ht : ∀ s, P (.text s))
    (he : ∀ a cs, (∀ c ∈ cs, P c) → P (.element a cs)) : ∀ n, P n
  | .text s => ht s
  | .element a cs => he a cs fun c hc => Node.induct ht he c
termination_by n => sizeOf n
decreasing_by
  simp_wf
  have h1 := List.sizeOf_lt_of_mem hc
  omega


/-- The skeleton of a node as seen by the pair loop: its text content, or
`none` for an element. -/
def skel : Node → Option (List Char)
  | .text t => some t
  | .element _ _ => none


/-- Skeletons of a child list. -/
def skels (cs : List Node) : List (Option (List Char)) := cs.map skel


/-- The text contents among direct children. -/
def textsTL (cs : List Node) : List (List Char) := (skels cs).filterMap id


/-- No adjacent pair (text ending with `\url `, text) among the
skeletons: on such a list the pair loop makes no replacement. -/
def noPairS : List (Option (List Char)) → Bool
  | some t :: some u :: rest => !(urlM.isSuffixOf t) && noPairS (some u :: rest)
  | _ :: rest => noPairS rest
  | [] => true


/-- No two overlapping URL matches: no adjacent triple of texts whose
first two both end with the marker (on such a triple the second
replacement of the first match steals the node the second match wants to
replace, and `Element.replace` raises). -/
def ovFreeS : List (Option (List Char)) → Bool
  | some t :: some u :: some v :: rest =>
    (!(urlM.isSuffixOf t) || !(urlM.isSuffixOf u)) && ovFreeS (some u :: some v :: rest)
  | _ :: rest => ovFreeS rest
  | [] => true


/-- No marker-stripped text collides with another text child: keeps the
equality-based `Element.replace` from matching a previously stripped
sibling instead of the intended node. -/
def StripFree (cs : List Node) : Prop :=
  ∀ t ∈ textsTL cs, urlM.isSuffixOf t → stripUrl t ∉ textsTL cs


/-- A child list is clean for the link-recovery pass: distinct text
children, no strip collisions, no overlapping matches. -/
def CleanList (cs : List Node) : Prop :=
  (textsTL cs).Nodup ∧ StripFree cs ∧ ovFreeS (skels cs) = true


mutual
/-- A subtree is clean for the link-recovery pass at every level. -/
def CleanNode : Node → Prop
  | .text _ => True
  | .element _ cs => CleanList cs ∧ CleanChildren cs

/-- All members of a child list are clean. -/
def CleanChildren : List Node → Prop
  | [] => True
  | c :: cs => CleanNode c ∧ CleanChildren cs
end

mutual
/-- A subtree contains no URL pattern anywhere: the link-recovery pass
leaves it unchanged. -/
def pristineN : Node → Bool
  | .text _ => true
  | .element _ cs => noPairS (skels cs) && pristineL cs

/-- All members of a child list are pristine. -/
def pristineL : List Node → Bool
  | [] => true
  | c :: cs => pristineN c && pristineL cs
end

/-- What one fired match puts at the position of the followed text (a
`reference` wrapping it); elements are left as they are. -/
def refWrapN : Node → Node
  | .text u => refNode u
  | e => e


/-- Positional description of a successful pair loop on a clean list:
the flag records that the previous position fired, so the current node
has already been wrapped in a reference. -/
def posMap : Bool → List Node → List Node
  | _, [] => []
  | true, c :: rest => refWrapN c :: posMap false rest
  | false, .text t :: .text u :: rest =>
    if urlM.isSuffixOf t then .text (stripUrl t) :: posMap true (.text u :: rest)
    else .text t :: posMap false (.text u :: rest)
  | false, c :: rest => c :: posMap false rest


/-- A child list is safe for emphasis-recovery idempotence: stripping the
markers from a marker-ending text child never yields a text that again
ends with the marker (removal can create a new occurrence at a junction,
e.g. `"\te" ++ "\textit " ++ "xtit "`). -/
def EmphSafe (cs : List Node) : Prop :=
  ∀ t, Node.text t ∈ cs → textitM.isSuffixOf t →
    textitM.isSuffixOf (removeTextit t) = false


/-- The per-citation node construction and text transform, in recorded
order (the pure part of `processCits`, without the counter). -/
def buildAll (refs : List CitationRef) (bib_key : BibliographyKey)
    (bib : Bibliography) : List Citation → Option (List Node)
  | [] => some []
  | c :: cs => do
    pure ((← ntt (buildCitationNode refs bib_key bib c)) :: (← buildAll refs bib_key bib cs))


/-! ## Helper lemmas: definitional equations -/

/-! ## Helper lemmas: skeletons -/

/-! ## Helper lemmas: the pristine no-op -/

/-! ## Helper lemmas: the clean-loop characterization -/

/-! ## Helper lemmas: the emphasis pass -/

/-- Does processing this child arm `next_wrap` for the following child? -/
def armsWrap : Node → Bool
  | .text t => textitM.isSuffixOf t
  | .element _ _ => false


/-- The `next_wrap` state after processing a child list. -/
def flagAfter : Bool → List Node → Bool
  | w, [] => w
  | _, c :: cs => flagAfter (armsWrap c) cs


/-! ## Helper lemmas: the bibliography transform -/

/-- The visible start of an enumerated bibliography: the requested start
when at least 1, else the shared counter (1 when never initialized). -/
def bibStart (bib : Bibliography) (counter : Option Int) : Int :=
  if bib.start ≥ 1 then bib.start else counter.getD 1


/-- The shared counter after processing one bibliography. -/
def bibCounterAfter (bib : Bibliography) (counter : Option Int) (n : Nat) : Option Int :=
  if bib.list_ = "enumerated" then some (bibStart bib counter + n) else counter


/-- The node that replaces the placeholder, given the processed entries. -/
def bibRender (hA : Attrs) (hC : List Node) (bib : Bibliography)
    (cits : List Citation) (sv : Int) (es : List Node) : Node :=
  if cits ≠ [] then
    .element hA (hC ++
      (if bib.list_ = "enumerated" then [.element (enumListAttrs bib.enumtype sv) es]
       else if bib.list_ = "bullet" then [.element { tag := "bullet_list" } es]
       else es))
  else .element { tag := "target" } []


/-! ## Decidable mirrors of the cleanliness predicates -/

/-- Boolean duplicate check on text contents. -/
def nodupB : List (List Char) → Bool
  | [] => true
  | t :: ts => !(ts.contains t) && nodupB ts


/-- Boolean version of `StripFree`. -/
def stripFreeB (cs : List Node) : Bool :=
  (textsTL cs).all fun t =>
    !(urlM.isSuffixOf t) || !((textsTL cs).contains (stripUrl t))


/-- Boolean version of `CleanList`. -/
def cleanLB (cs : List Node) : Bool :=
  nodupB (textsTL cs) && stripFreeB cs && ovFreeS (skels cs)


mutual
/-- Boolean version of `CleanNode`. -/
def cleanNB : Node → Bool
  | .text _ => true
  | .element _ cs => cleanLB cs && cleanCB cs

/-- Boolean version of `CleanChildren`. -/
def cleanCB : List Node → Bool
  | [] => true
  | c :: cs => cleanNB c && cleanCB cs
end

/-- Boolean hypothesis for emphasis idempotence: no marker-ending text
child strips to a text that again ends with the marker. -/
def emphSafeB (cs : List Node) : Bool :=
  cs.all fun c =>
    match c with
    | .text t => !(textitM.isSuffixOf t) || !(textitM.isSuffixOf (removeTextit t))
    | .element _ _ => true


/-- Boolean hypothesis for the emphasis no-op: no text child ends with
the marker. -/
def noTextitB (cs : List Node) : Bool :=
  cs.all fun c =>
    match c with
    | .text t => !(textitM.isSuffixOf t)
    | .element _ _ => true


/-! ## Helper lemmas: splitting the positional description -/

/-! ## Helper lemmas: the document loop -/

/-! ## Claims -/

/-! ## Concrete example inputs used by the witnesses -/

def exKey1 : BibliographyKey := ⟨"doc", "bib1"⟩


def exKey2 : BibliographyKey := ⟨"doc", "bib2"⟩


def exKey3 : BibliographyKey := ⟨"doc", "bib3"⟩


def exKey4 : BibliographyKey := ⟨"doc", "bib4"⟩


def exEntry : FormattedEntry := ⟨"[1]".toList, [.text "Alpha".toList]⟩


def exEnumBib : Bibliography :=
  { list_ := "enumerated", enumtype := "arabic", start := 0,
    citation_nodes := fun _ => ({ tag := "list_item" }, []) }


def exCitBib : Bibliography :=
  { list_ := "citation", enumtype := "arabic", start := 0,
    citation_nodes := fun _ => ({ tag := "citation" }, []) }


def exDom : BibtexDomain :=
  { citations := [⟨exKey1, "a", exEntry⟩, ⟨exKey1, "b", exEntry⟩,
      ⟨exKey1, "c", exEntry⟩, ⟨exKey2, "d", exEntry⟩, ⟨exKey2, "e", exEntry⟩,
      ⟨exKey3, "x", exEntry⟩],
    citation_refs := [⟨"doc", "ref1", ["x"]⟩, ⟨"other", "ref2", ["x"]⟩],
    bibliographies := fun k => if k = exKey3 then exCitBib else exEnumBib,
    header_attrs := { tag := "container" },
    header_children := [] }


def exItem : Node :=
  .element { tag := "list_item", docname := "doc" }
    [.element { tag := "paragraph" } [.text "Alpha".toList]]


def exNode1 : Node :=
  .element { tag := "container" }
    [.element { tag := "enumerated_list", enumtype := "arabic", start := 1 }
      [exItem, exItem, exItem]]


def exNode2 : Node :=
  .element { tag := "container" }
    [.element { tag := "enumerated_list", enumtype := "arabic", start := 4 }
      [exItem, exItem]]


def exCitX : Citation := ⟨exKey3, "x", exEntry⟩


def exCitY : Citation := ⟨exKey3, "y", exEntry⟩


def exEntryNodeX : Node :=
  .element { tag := "citation", backrefs := ["ref1"], docname := "doc" }
    [.element { tag := "label", support_smartquotes := false } [.text "[1]".toList],
     .element { tag := "paragraph" } [.text "Alpha".toList]]


def exEntryNodeY : Node :=
  .element { tag := "citation", docname := "doc" }
    [.element { tag := "label", support_smartquotes := false } [.text "[1]".toList],
     .element { tag := "paragraph" } [.text "Alpha".toList]]


/-! ## Witnesses -/

theorem ntt_text (s : List Char) : ntt (.text s) = some (.text s) := rfl


theorem ntt_element_def (a : Attrs) (cs : List Node) :
    ntt (.element a cs) = Option.bind (nttList cs) fun cs1 =>
      Option.bind (nttTextLoop cs1 cs1) fun cs2 => some (.element a cs2) := rfl


theorem nttList_nil : nttList [] = some [] := rfl


theorem nttList_cons_def (c : Node) (cs : List Node) :
    nttList (c :: cs) = Option.bind (ntt c) fun c' =>
      Option.bind (nttList cs) fun cs' => some (c' :: cs') := rfl


theorem ntt_element_some {a : Attrs} {cs : List Node} {m : Node}
    (h : ntt (.element a cs) = some m) :
    ∃ cs1 cs2, nttList cs = some cs1 ∧ nttTextLoop cs1 cs1 = some cs2 ∧
      m = .element a cs2 := by
  rw [ntt_element_def] at h
  rcases h1 : nttList cs with _ | cs1 <;> rw [h1] at h
  · exact absurd h (by simp)
  simp only [Option.some_bind] at h
  rcases h2 : nttTextLoop cs1 cs1 with _ | cs2 <;> rw [h2] at h
  · exact absurd h (by simp)
  simp only [Option.some_bind, Option.some_inj] at h
  exact ⟨cs1, cs2, rfl, h2, h.symm⟩


theorem nttList_cons_some {c : Node} {cs cs1 : List Node}
    (h : nttList (c :: cs) = some cs1) :
    ∃ c' cs', ntt c = some c' ∧ nttList cs = some cs' ∧ cs1 = c' :: cs' := by
  rw [nttList_cons_def] at h
  rcases h1 : ntt c with _ | c' <;> rw [h1] at h
  · exact absurd h (by simp)
  simp only [Option.some_bind] at h
  rcases h2 : nttList cs with _ | cs' <;> rw [h2] at h
  · exact absurd h (by simp)
  simp only [Option.some_bind, Option.some_inj] at h
  exact ⟨c', cs', rfl, rfl, h.symm⟩


theorem skels_cons (c : Node) (cs : List Node) :
    skels (c :: cs) = skel c :: skels cs := rfl


theorem skels_append (l1 l2 : List Node) :
    skels (l1 ++ l2) = skels l1 ++ skels l2 := List.map_append _ _ _


theorem textsTL_cons_text (t : List Char) (cs : List Node) :
    textsTL (.text t :: cs) = t :: textsTL cs := rfl


theorem textsTL_cons_elem (a : Attrs) (ds cs : List Node) :
    textsTL (.element a ds :: cs) = textsTL cs := rfl


theorem textsTL_append (l1 l2 : List Node) :
    textsTL (l1 ++ l2) = textsTL l1 ++ textsTL l2 := by
  unfold textsTL
  rw [skels_append, List.filterMap_append]


theorem ntt_skel {c c' : Node} (h : ntt c = some c') : skel c' = skel c := by
  cases c with
  | text t => rw [ntt_text, Option.some_inj] at h; rw [← h]
  | element a cs =>
    obtain ⟨cs1, cs2, _, _, hm⟩ := ntt_element_some h
    rw [hm]
    rfl


theorem nttList_skels : ∀ {cs cs1 : List Node}, nttList cs = some cs1 →
    skels cs1 = skels cs := by
  intro cs
  induction cs with
  | nil => intro cs1 h; rw [nttList_nil, Option.some_inj] at h; rw [← h]
  | cons c cs ih =>
    intro cs1 h
    obtain ⟨c', cs', h1, h2, h3⟩ := nttList_cons_some h
    rw [h3, skels_cons, skels_cons, ntt_skel h1, ih h2]


theorem nttList_mem : ∀ {cs cs1 : List Node}, nttList cs = some cs1 →
    ∀ c1 ∈ cs1, ∃ c ∈ cs, ntt c = some c1 := by
  intro cs
  induction cs with
  | nil =>
    intro cs1 h
    rw [nttList_nil, Option.some_inj] at h
    intro c1 hc1
    rw [← h] at hc1
    exact absurd hc1 (List.not_mem_nil _)
  | cons c cs ih =>
    intro cs1 h c1 hc1
    obtain ⟨c', cs', h1, h2, h3⟩ := nttList_cons_some h
    rw [h3] at hc1
    rcases List.mem_cons.mp hc1 with h4 | h4
    · exact ⟨c, List.mem_cons_self _ _, h4 ▸ h1⟩
    · obtain ⟨d, hd, hdn⟩ := ih h2 c1 h4
      exact ⟨d, List.mem_cons_of_mem _ hd, hdn⟩


theorem nttList_congr : ∀ {cs : List Node}, (∀ c ∈ cs, ntt c = some c) →
    nttList cs = some cs := by
  intro cs
  induction cs with
  | nil => intro _; rfl
  | cons c cs ih =>
    intro h
    rw [nttList_cons_def, h c (List.mem_cons_self _ _), Option.some_bind,
      ih fun d hd => h d (List.mem_cons_of_mem _ hd), Option.some_bind]


theorem nttTextLoop_noPair : ∀ {s : List Node}, noPairS (skels s) = true →
    ∀ cur, nttTextLoop s cur = some cur := by
  intro s
  induction s with
  | nil => intro _ cur; rfl
  | cons c rest ih =>
    intro h cur
    cases c with
    | text t =>
      cases rest with
      | nil => rfl
      | cons d rest' =>
        cases d with
        | text u =>
          rw [skels_cons, skels_cons] at h
          simp only [skel, noPairS, Bool.and_eq_true, Bool.not_eq_true'] at h
          rw [nttTextLoop, if_neg (by simp [h.1])]
          exact ih (by rw [skels_cons]; exact h.2) cur
        | element b ds =>
          rw [show nttTextLoop (Node.text t :: Node.element b ds :: rest') cur =
            nttTextLoop (Node.element b ds :: rest') cur from rfl]
          rw [skels_cons] at h
          exact ih h cur
    | element b ds =>
      rw [show nttTextLoop (Node.element b ds :: rest) cur =
        nttTextLoop rest cur from rfl]
      rw [skels_cons] at h
      exact ih h cur


theorem pristineL_mem : ∀ {cs : List Node}, pristineL cs = true →
    ∀ c ∈ cs, pristineN c = true := by
  intro cs
  induction cs with
  | nil => intro _ c hc; exact absurd hc (List.not_mem_nil _)
  | cons c cs ih =>
    intro h d hd
    rw [pristineL, Bool.and_eq_true] at h
    rcases List.mem_cons.mp hd with h1 | h1
    · exact h1 ▸ h.1
    · exact ih h.2 d h1


theorem ntt_pristine : ∀ n, pristineN n = true → ntt n = some n := by
  intro n
  induction n using Node.induct with
  | ht s => intro _; rfl
  | he a cs ih =>
    intro h
    rw [pristineN, Bool.and_eq_true] at h
    have h1 : nttList cs = some cs :=
      nttList_congr fun c hc => ih c hc (pristineL_mem h.2 c hc)
    rw [ntt_element_def, h1, Option.some_bind, nttTextLoop_noPair h.1 cs,
      Option.some_bind]


theorem nttTextLoop_cons_tt (t u : List Char) (rest cur : List Node) :
    nttTextLoop (.text t :: .text u :: rest) cur =
      if urlM.isSuffixOf t then
        Option.bind (replaceFirstText cur t (.text (stripUrl t))) fun cur1 =>
          Option.bind (replaceFirstText cur1 u (refNode u)) fun cur2 =>
            nttTextLoop (.text u :: rest) cur2
      else nttTextLoop (.text u :: rest) cur := rfl


theorem replaceFirstText_append {pre : List Node} (tail : List Node)
    (t : List Char) (new : Node) (h : t ∉ textsTL pre) :
    replaceFirstText (pre ++ .text t :: tail) t new = some (pre ++ new :: tail) := by
  induction pre with
  | nil => simp [replaceFirstText]
  | cons c pre ih =>
    cases c with
    | text s =>
      rw [textsTL_cons_text] at h
      have hst : ¬s = t := fun hst => h (hst ▸ List.mem_cons_self _ _)
      rw [List.cons_append, replaceFirstText, if_neg hst,
        ih fun hx => h (List.mem_cons_of_mem _ hx)]
      rfl
    | element b ds =>
      rw [textsTL_cons_elem] at h
      rw [List.cons_append,
        show replaceFirstText (Node.element b ds :: (pre ++ Node.text t :: tail)) t new =
          (replaceFirstText (pre ++ Node.text t :: tail) t new).map (Node.element b ds :: ·) from rfl,
        ih h]
      rfl


theorem ovFreeS_tail {x : Option (List Char)} {l : List (Option (List Char))}
    (h : ovFreeS (x :: l) = true) : ovFreeS l = true := by
  rcases x with _ | t
  · exact h
  rcases l with _ | ⟨y, l'⟩
  · rfl
  rcases y with _ | u
  · exact h
  rcases l' with _ | ⟨z, l''⟩
  · exact h
  rcases z with _ | v
  · exact h
  rw [ovFreeS, Bool.and_eq_true] at h
  exact h.2


theorem ovFreeS_head {t u v : List Char} {r : List (Option (List Char))}
    (h : ovFreeS (some t :: some u :: some v :: r) = true)
    (ht : urlM.isSuffixOf t = true) : urlM.isSuffixOf u = false := by
  rw [ovFreeS, Bool.and_eq_true] at h
  rcases Bool.or_eq_true _ _ |>.mp h.1 with h1 | h1
  · rw [Bool.not_eq_true'] at h1; exact absurd ht (by simp [h1])
  · rw [Bool.not_eq_true'] at h1; exact h1


theorem textsTL_nil : textsTL [] = [] := rfl


theorem textsTL_snoc_text (pre : List Node) (t : List Char) :
    textsTL (pre ++ [.text t]) = textsTL pre ++ [t] := by
  rw [textsTL_append, textsTL_cons_text, textsTL_nil]


theorem textsTL_snoc_elem (pre : List Node) (b : Attrs) (ds : List Node) :
    textsTL (pre ++ [.element b ds]) = textsTL pre := by
  rw [textsTL_append, textsTL_cons_elem, textsTL_nil, List.append_nil]


theorem notMemTail {x y : List Char} {l : List (List Char)}
    (h : x ∉ y :: l) : x ∉ l := fun hx => h (List.mem_cons_of_mem _ hx)


theorem posMap_nil (f : Bool) : posMap f [] = [] := by cases f <;> rfl


theorem posMap_true_cons (c : Node) (rest : List Node) :
    posMap true (c :: rest) = refWrapN c :: posMap false rest := by
  cases c <;> rfl


theorem posMap_tt (t u : List Char) (rest : List Node) :
    posMap false (.text t :: .text u :: rest) =
      if urlM.isSuffixOf t then .text (stripUrl t) :: posMap true (.text u :: rest)
      else .text t :: posMap false (.text u :: rest) := rfl


theorem posMap_false_text_elem (t : List Char) (b : Attrs) (ds rest : List Node) :
    posMap false (.text t :: .element b ds :: rest) =
      .text t :: posMap false (.element b ds :: rest) := rfl


theorem posMap_false_text_nil (t : List Char) :
    posMap false [.text t] = [.text t] := rfl


theorem posMap_false_elem (b : Attrs) (ds rest : List Node) :
    posMap false (.element b ds :: rest) = .element b ds :: posMap false rest := rfl


/-- Master characterization of the pair loop on a clean child list: with
distinct text children, no strip collisions and no overlapping matches,
the loop succeeds and produces the positional description `posMap`.  The
two conjuncts track whether the previous snapshot position fired (in
which case the current snapshot text already sits inside a fresh
reference in the current list). -/
theorem nttTextLoop_master : ∀ (s : List Node),
    (∀ (pre : List Node),
      (textsTL s).Nodup →
      (∀ x ∈ textsTL pre, x ∉ textsTL s) →
      (∀ t ∈ textsTL s, urlM.isSuffixOf t → stripUrl t ∉ textsTL s) →
      ovFreeS (skels s) = true →
      nttTextLoop s (pre ++ s) = some (pre ++ posMap false s))
    ∧
    (∀ (pre : List Node) (u : List Char) (rest1 : List Node),
      s = .text u :: rest1 →
      (textsTL s).Nodup →
      (∀ x ∈ textsTL pre, x ∉ textsTL s) →
      (∀ t ∈ textsTL s, urlM.isSuffixOf t → stripUrl t ∉ textsTL s) →
      ovFreeS (skels s) = true →
      (∀ v rest', rest1 = .text v :: rest' → urlM.isSuffixOf u = false) →
      nttTextLoop s (pre ++ refNode u :: rest1) = some (pre ++ posMap true s)) := by
  intro s
  induction s with
  | nil =>
    refine ⟨fun pre _ _ _ _ => ?_, fun pre u rest1 hs => absurd hs (by simp)⟩
    rw [posMap_nil, List.append_nil]
    rfl
  | cons c rest ih =>
    constructor
    · -- previous position did not fire: current list is pre ++ (c :: rest)
      intro pre hnd hpre hsf hov
      cases c with
      | element b ds =>
        rw [show nttTextLoop (Node.element b ds :: rest) (pre ++ Node.element b ds :: rest) =
            nttTextLoop rest (pre ++ Node.element b ds :: rest) from rfl,
          posMap_false_elem,
          show pre ++ Node.element b ds :: rest = (pre ++ [Node.element b ds]) ++ rest by simp,
          show pre ++ Node.element b ds :: posMap false rest =
            (pre ++ [Node.element b ds]) ++ posMap false rest by simp]
        refine ih.1 (pre ++ [Node.element b ds]) hnd ?_ hsf (ovFreeS_tail hov)
        intro x hx
        rw [textsTL_snoc_elem] at hx
        exact hpre x hx
      | text t =>
        rcases rest with _ | ⟨d, rest'⟩
        · rw [show nttTextLoop [Node.text t] (pre ++ [Node.text t]) =
              some (pre ++ [Node.text t]) from rfl, posMap_false_text_nil]
        cases d with
        | element b ds =>
          rw [show nttTextLoop (Node.text t :: Node.element b ds :: rest')
                (pre ++ Node.text t :: Node.element b ds :: rest') =
              nttTextLoop (Node.element b ds :: rest')
                (pre ++ Node.text t :: Node.element b ds :: rest') from rfl,
            posMap_false_text_elem,
            show pre ++ Node.text t :: Node.element b ds :: rest' =
              (pre ++ [Node.text t]) ++ (Node.element b ds :: rest') by simp,
            show pre ++ Node.text t :: posMap false (Node.element b ds :: rest') =
              (pre ++ [Node.text t]) ++ posMap false (Node.element b ds :: rest') by simp]
        
          rw [textsTL_cons_text] at hnd hpre hsf
          obtain ⟨hnotin, hnd'⟩ := List.nodup_cons.mp hnd
          refine ih.1 (pre ++ [Node.text t]) hnd' ?_ ?_ (ovFreeS_tail hov)
          · intro x hx
            rw [textsTL_snoc_text] at hx
            rcases List.mem_append.mp hx with h1 | h1
            · exact notMemTail (hpre x h1)
            · rw [List.mem_singleton.mp h1]; exact hnotin
          · intro t' ht' hsfx
            exact notMemTail (hsf t' (List.mem_cons_of_mem _ ht') hsfx)
        | text u =>
          rw [textsTL_cons_text] at hnd hpre hsf
          obtain ⟨hnotin, hnd'⟩ := List.nodup_cons.mp hnd
          cases hsx : urlM.isSuffixOf t with
          | false =>
            rw [nttTextLoop_cons_tt, hsx, if_neg (by simp), posMap_tt, hsx,
              if_neg (by simp),
              show pre ++ Node.text t :: Node.text u :: rest' =
                (pre ++ [Node.text t]) ++ (Node.text u :: rest') by simp,
              show pre ++ Node.text t :: posMap false (Node.text u :: rest') =
                (pre ++ [Node.text t]) ++ posMap false (Node.text u :: rest') by simp]
            refine ih.1 (pre ++ [Node.text t]) hnd' ?_ ?_ (ovFreeS_tail hov)
            · intro x hx
              rw [textsTL_snoc_text] at hx
              rcases List.mem_append.mp hx with h1 | h1
              · exact notMemTail (hpre x h1)
              · rw [List.mem_singleton.mp h1]; exact hnotin
            · intro t' ht' hsfx
              exact notMemTail (hsf t' (List.mem_cons_of_mem _ ht') hsfx)
          | true =>
            have hmemt : t ∈ t :: textsTL (Node.text u :: rest') := List.mem_cons_self _ _
            have hstript : stripUrl t ∉ t :: textsTL (Node.text u :: rest') := hsf t hmemt hsx
            have htpre : t ∉ textsTL pre := fun hx => hpre t hx hmemt
            rw [nttTextLoop_cons_tt, hsx, if_pos rfl,
              replaceFirstText_append (Node.text u :: rest') t (Node.text (stripUrl t)) htpre,
              Option.some_bind,
              show pre ++ Node.text (stripUrl t) :: Node.text u :: rest' =
                (pre ++ [Node.text (stripUrl t)]) ++ Node.text u :: rest' by simp]
            have hupre : u ∉ textsTL (pre ++ [Node.text (stripUrl t)]) := by
              rw [textsTL_snoc_text]
              intro hx
              rcases List.mem_append.mp hx with h1 | h1
              · exact hpre u h1 (by
                  rw [textsTL_cons_text]
                  exact List.mem_cons_of_mem _ (List.mem_cons_self _ _))
              · rw [List.mem_singleton.mp h1] at hstript
                exact hstript (by
                  rw [textsTL_cons_text]
                  exact List.mem_cons_of_mem _ (List.mem_cons_self _ _))
            rw [replaceFirstText_append rest' u (refNode u) hupre, Option.some_bind]
            have hrec := ih.2 (pre ++ [Node.text (stripUrl t)]) u rest' rfl hnd' ?_ ?_
              (ovFreeS_tail hov) ?_
            · rw [show (pre ++ [Node.text (stripUrl t)]) ++ refNode u :: rest' =
                  (pre ++ [Node.text (stripUrl t)]) ++ refNode u :: rest' from rfl] at hrec
              rw [hrec, posMap_tt, hsx, if_pos rfl]
              simp
            · intro x hx
              rw [textsTL_snoc_text] at hx
              rw [textsTL_cons_text] at hnotin ⊢
              rcases List.mem_append.mp hx with h1 | h1
              · exact notMemTail (hpre x h1)
              · rw [List.mem_singleton.mp h1]
                rw [textsTL_cons_text] at hstript
                exact notMemTail hstript
            · intro t' ht' hsfx
              exact notMemTail (hsf t' (List.mem_cons_of_mem _ ht') hsfx)
            · intro v rest'' hr
              subst hr
              exact ovFreeS_head hov hsx
    · -- previous position fired: current list is pre ++ refNode u :: rest1
      intro pre u rest1 hs hnd hpre hsf hov hfire
      obtain ⟨hc, hr⟩ : c = Node.text u ∧ rest = rest1 := by
        injection hs with h1 h2
        exact ⟨h1, h2⟩
      subst hc
      subst hr
      rw [textsTL_cons_text] at hnd hpre hsf
      obtain ⟨hnotin, hnd'⟩ := List.nodup_cons.mp hnd
      rcases rest with _ | ⟨d, rest'⟩
      · rw [show nttTextLoop [Node.text u] (pre ++ [refNode u]) =
            some (pre ++ [refNode u]) from rfl,
          posMap_true_cons, posMap_nil]
        rfl
      cases d with
      | text v =>
        have hsu : urlM.isSuffixOf u = false := hfire v rest' rfl
        rw [nttTextLoop_cons_tt, hsu, if_neg (by simp), posMap_true_cons,
          show refWrapN (Node.text u) = refNode u from rfl,
          show pre ++ refNode u :: Node.text v :: rest' =
            (pre ++ [refNode u]) ++ (Node.text v :: rest') by simp,
          show pre ++ refNode u :: posMap false (Node.text v :: rest') =
            (pre ++ [refNode u]) ++ posMap false (Node.text v :: rest') by simp]
        refine ih.1 (pre ++ [refNode u]) hnd' ?_ ?_ (ovFreeS_tail hov)
        · intro x hx
          rw [refNode, textsTL_snoc_elem] at hx
          exact notMemTail (hpre x hx)
        · intro t' ht' hsfx
          exact notMemTail (hsf t' (List.mem_cons_of_mem _ ht') hsfx)
      | element b ds =>
        rw [show nttTextLoop (Node.text u :: Node.element b ds :: rest')
              (pre ++ refNode u :: Node.element b ds :: rest') =
            nttTextLoop (Node.element b ds :: rest')
              (pre ++ refNode u :: Node.element b ds :: rest') from rfl,
          posMap_true_cons,
          show refWrapN (Node.text u) = refNode u from rfl,
          show pre ++ refNode u :: Node.element b ds :: rest' =
            (pre ++ [refNode u]) ++ (Node.element b ds :: rest') by simp,
          show pre ++ refNode u :: posMap false (Node.element b ds :: rest') =
            (pre ++ [refNode u]) ++ posMap false (Node.element b ds :: rest') by simp]
        refine ih.1 (pre ++ [refNode u]) hnd' ?_ ?_ (ovFreeS_tail hov)
        · intro x hx
          rw [refNode, textsTL_snoc_elem] at hx
          exact notMemTail (hpre x hx)
        · intro t' ht' hsfx
          exact notMemTail (hsf t' (List.mem_cons_of_mem _ ht') hsfx)


theorem skel_refWrapN (c : Node) : skel (refWrapN c) = none := by
  cases c <;> rfl


theorem noPairS_none_cons (l : List (Option (List Char))) :
    noPairS (none :: l) = noPairS l := rfl


theorem noPairS_some_none (t : List Char) (l : List (Option (List Char))) :
    noPairS (some t :: none :: l) = noPairS (none :: l) := rfl


theorem noPairS_some_some (t u : List Char) (l : List (Option (List Char))) :
    noPairS (some t :: some u :: l) =
      (!(urlM.isSuffixOf t) && noPairS (some u :: l)) := rfl


theorem posMap_false_text_head (u : List Char) (rest' : List Node) :
    ∃ w tl, posMap false (.text u :: rest') = .text w :: tl := by
  rcases rest' with _ | ⟨d, r⟩
  · exact ⟨u, [], posMap_false_text_nil u⟩
  cases d with
  | text v =>
    cases hs : urlM.isSuffixOf u with
    | true => exact ⟨stripUrl u, _, by rw [posMap_tt, hs, if_pos rfl]⟩
    | false => exact ⟨u, _, by rw [posMap_tt, hs, if_neg (by simp)]⟩
  | element b ds => exact ⟨u, _, posMap_false_text_elem u b ds r⟩


theorem noPairS_posMap : ∀ (s : List Node) (f : Bool),
    noPairS (skels (posMap f s)) = true := by
  intro s
  induction s with
  | nil => intro f; rw [posMap_nil]; rfl
  | cons c rest ih =>
    intro f
    cases f with
    | true =>
      rw [posMap_true_cons, skels_cons, skel_refWrapN, noPairS_none_cons]
      exact ih false
    | false =>
      cases c with
      | element b ds =>
        rw [posMap_false_elem, skels_cons,
          show skel (Node.element b ds) = none from rfl, noPairS_none_cons]
        exact ih false
      | text t =>
        rcases rest with _ | ⟨d, r⟩
        · rw [posMap_false_text_nil]; rfl
        cases d with
        | element b ds =>
          rw [posMap_false_text_elem, posMap_false_elem, skels_cons, skels_cons,
            show skel (Node.text t) = some t from rfl,
            show skel (Node.element b ds) = none from rfl,
            noPairS_some_none, noPairS_none_cons]
          have h1 := ih false
          rw [posMap_false_elem, skels_cons,
            show skel (Node.element b ds) = none from rfl, noPairS_none_cons] at h1
          exact h1
        | text u =>
          cases hs : urlM.isSuffixOf t with
          | true =>
            rw [posMap_tt, hs, if_pos rfl, posMap_true_cons, skels_cons, skels_cons,
              show skel (Node.text (stripUrl t)) = some (stripUrl t) from rfl,
              skel_refWrapN, noPairS_some_none, noPairS_none_cons]
            have h1 := ih true
            rw [posMap_true_cons, skels_cons, skel_refWrapN, noPairS_none_cons] at h1
            exact h1
          | false =>
            rw [posMap_tt, hs, if_neg (by simp)]
            obtain ⟨w, tl, hw⟩ := posMap_false_text_head u r
            rw [hw, skels_cons, skels_cons,
              show skel (Node.text t) = some t from rfl,
              show skel (Node.text w) = some w from rfl,
              noPairS_some_some, hs]
            have h1 := ih false
            rw [hw, skels_cons, show skel (Node.text w) = some w from rfl] at h1
            rw [h1]
            rfl


theorem pristineL_cons (c : Node) (cs : List Node) :
    pristineL (c :: cs) = (pristineN c && pristineL cs) := rfl


theorem pristineN_refNode (u : List Char) : pristineN (refNode u) = true := rfl


theorem pristineL_posMap : ∀ (s : List Node),
    (∀ c ∈ s, pristineN c = true) → ∀ f, pristineL (posMap f s) = true := by
  intro s
  induction s with
  | nil => intro _ f; rw [posMap_nil]; rfl
  | cons c rest ih =>
    intro h f
    have hc : pristineN c = true := h c (List.mem_cons_self _ _)
    have hrest : ∀ d ∈ rest, pristineN d = true :=
      fun d hd => h d (List.mem_cons_of_mem _ hd)
    cases f with
    | true =>
      rw [posMap_true_cons, pristineL_cons, Bool.and_eq_true]
      refine ⟨?_, ih hrest false⟩
      cases c with
      | text u => exact pristineN_refNode u
      | element b ds => exact hc
    | false =>
      cases c with
      | element b ds =>
        rw [posMap_false_elem, pristineL_cons, Bool.and_eq_true]
        exact ⟨hc, ih hrest false⟩
      | text t =>
        rcases rest with _ | ⟨d, r⟩
        · rw [posMap_false_text_nil]; rfl
        cases d with
        | element b ds =>
          rw [posMap_false_text_elem, pristineL_cons, Bool.and_eq_true]
          exact ⟨rfl, ih hrest false⟩
        | text u =>
          cases hs : urlM.isSuffixOf t with
          | true =>
            rw [posMap_tt, hs, if_pos rfl, pristineL_cons, Bool.and_eq_true]
            exact ⟨rfl, ih hrest true⟩
          | false =>
            rw [posMap_tt, hs, if_neg (by simp), pristineL_cons, Bool.and_eq_true]
            exact ⟨rfl, ih hrest false⟩


theorem CleanChildren_mem : ∀ {cs : List Node}, CleanChildren cs →
    ∀ c ∈ cs, CleanNode c := by
  intro cs
  induction cs with
  | nil => intro _ c hc; exact absurd hc (List.not_mem_nil _)
  | cons c cs ih =>
    intro h d hd
    rw [CleanChildren] at h
    rcases List.mem_cons.mp hd with h1 | h1
    · exact h1 ▸ h.1
    · exact ih h.2 d h1


theorem CleanList_of_skels_eq {cs cs1 : List Node} (hsk : skels cs1 = skels cs)
    (h : CleanList cs) : CleanList cs1 := by
  obtain ⟨h1, h2, h3⟩ := h
  refine ⟨?_, ?_, ?_⟩
  · unfold textsTL
    rw [hsk]
    exact h1
  · unfold StripFree textsTL
    rw [hsk]
    exact h2
  · rw [hsk]
    exact h3


/-- On a clean subtree, a successful run of `node_text_transform` produces
a subtree with no remaining URL pattern anywhere. -/
theorem ntt_clean_pristine : ∀ n, CleanNode n → ∀ n', ntt n = some n' →
    pristineN n' = true := by
  intro n
  induction n using Node.induct with
  | ht s =>
    intro _ n' h
    rw [ntt_text, Option.some_inj] at h
    rw [← h]
    rfl
  | he a cs ih =>
    intro hcl n' h
    rw [CleanNode] at hcl
    obtain ⟨cs1, cs2, h1, h2, h3⟩ := ntt_element_some h
    have hcl1 : CleanList cs1 := CleanList_of_skels_eq (nttList_skels h1) hcl.1
    obtain ⟨hnd, hsf, hov⟩ := hcl1
    have hmaster := (nttTextLoop_master cs1).1 [] hnd (by simp [textsTL_nil]) hsf hov
    rw [List.nil_append, List.nil_append] at hmaster
    rw [hmaster, Option.some_inj] at h2
    have hmem : ∀ c ∈ cs1, pristineN c = true := by
      intro c hc
      obtain ⟨c0, hc0, hc0n⟩ := nttList_mem h1 c hc
      exact ih c0 hc0 (CleanChildren_mem hcl.2 c0 hc0) c hc0n
    rw [h3, pristineN, Bool.and_eq_true, ← h2]
    exact ⟨noPairS_posMap cs1 false, pristineL_posMap cs1 hmem false⟩


/-- On a clean subtree the link-recovery pass is idempotent in the Kleisli
sense: running it on its own successful output returns that output. -/
theorem ntt_clean_idem {n : Node} (h : CleanNode n) :
    (ntt n).bind ntt = ntt n := by
  rcases hn : ntt n with _ | n'
  · rfl
  rw [Option.some_bind]
  exact ntt_pristine n' (ntt_clean_pristine n h n' hn)


theorem emphLoop_nil (w : Bool) : emphLoop w [] = [] := by cases w <;> rfl


theorem emphLoop_text (w : Bool) (t : List Char) (rest : List Node) :
    emphLoop w (.text t :: rest) =
      if textitM.isSuffixOf t then .text (removeTextit t) :: emphLoop true rest
      else if w then emphNode (.text t) :: emphLoop false rest
      else .text t :: emphLoop false rest := rfl


theorem emphLoop_elem (w : Bool) (b : Attrs) (ds rest : List Node) :
    emphLoop w (.element b ds :: rest) =
      if w then emphNode (.element b ds) :: emphLoop false rest
      else .element b ds :: emphLoop false rest := rfl


theorem emphLoop_append : ∀ (l1 l2 : List Node) (w : Bool),
    emphLoop w (l1 ++ l2) = emphLoop w l1 ++ emphLoop (flagAfter w l1) l2 := by
  intro l1
  induction l1 with
  | nil => intro l2 w; rw [emphLoop_nil]; rfl
  | cons c l1 ih =>
    intro l2 w
    cases c with
    | text t =>
      have hflag : flagAfter w (Node.text t :: l1) =
        flagAfter (textitM.isSuffixOf t) l1 := rfl
      cases hs : textitM.isSuffixOf t with
      | true =>
        rw [List.cons_append, emphLoop_text, emphLoop_text, hs, if_pos rfl,
          if_pos rfl, ih, hflag, hs, List.cons_append]
      | false =>
        cases w with
        | true => simp [emphLoop_text, hs, hflag, ih]
        | false => simp [emphLoop_text, hs, hflag, ih]
    | element b ds =>
      have hflag : flagAfter w (Node.element b ds :: l1) = flagAfter false l1 := rfl
      rw [List.cons_append, emphLoop_elem, emphLoop_elem, hflag]
      cases w with
      | true => rw [if_pos rfl, if_pos rfl, ih, List.cons_append]
      | false => rw [if_neg (by simp), if_neg (by simp), ih, List.cons_append]


theorem emphLoop_noop : ∀ {cs : List Node},
    (∀ t, Node.text t ∈ cs → textitM.isSuffixOf t = false) →
    emphLoop false cs = cs := by
  intro cs
  induction cs with
  | nil => exact fun _ => rfl
  | cons c rest ih =>
    intro h
    have hrest : ∀ t, Node.text t ∈ rest → textitM.isSuffixOf t = false :=
      fun t ht => h t (List.mem_cons_of_mem _ ht)
    cases c with
    | text t =>
      rw [emphLoop_text, if_neg (by simp [h t (List.mem_cons_self _ _)]),
        if_neg (by simp), ih hrest]
    | element b ds =>
      rw [emphLoop_elem, if_neg (by simp), ih hrest]


theorem EmphSafe_tail {c : Node} {rest : List Node} (h : EmphSafe (c :: rest)) :
    EmphSafe rest := fun t ht hs => h t (List.mem_cons_of_mem _ ht) hs


theorem emphLoop_out_texts : ∀ (cs : List Node) (w : Bool), EmphSafe cs →
    ∀ t, Node.text t ∈ emphLoop w cs → textitM.isSuffixOf t = false := by
  intro cs
  induction cs with
  | nil =>
    intro w _ t ht
    rw [emphLoop_nil] at ht
    exact absurd ht (List.not_mem_nil _)
  | cons c rest ih =>
    intro w h t ht
    cases c with
    | text s =>
      rw [emphLoop_text] at ht
      cases hs : textitM.isSuffixOf s with
      | true =>
        rw [hs, if_pos rfl] at ht
        rcases List.mem_cons.mp ht with h1 | h1
        · have := h s (List.mem_cons_self _ _) (by simp [hs])
          injection h1 with h2
          rw [h2]
          exact this
        · exact ih true (EmphSafe_tail h) t h1
      | false =>
        rw [hs, if_neg (by simp)] at ht
        cases w with
        | true =>
          rw [if_pos rfl] at ht
          rcases List.mem_cons.mp ht with h1 | h1
          · exact absurd h1 (by simp [emphNode])
          · exact ih false (EmphSafe_tail h) t h1
        | false =>
          rw [if_neg (by simp)] at ht
          rcases List.mem_cons.mp ht with h1 | h1
          · injection h1 with h2
            rw [h2]
            exact hs
          · exact ih false (EmphSafe_tail h) t h1
    | element b ds =>
      rw [emphLoop_elem] at ht
      cases w with
      | true =>
        rw [if_pos rfl] at ht
        rcases List.mem_cons.mp ht with h1 | h1
        · exact absurd h1 (by simp [emphNode])
        · exact ih false (EmphSafe_tail h) t h1
      | false =>
        rw [if_neg (by simp)] at ht
        rcases List.mem_cons.mp ht with h1 | h1
        · exact absurd h1 (by simp)
        · exact ih false (EmphSafe_tail h) t h1


/-- On a safe child list the emphasis pass is idempotent. -/
theorem emphFix_idem {cs : List Node} (h : EmphSafe cs) :
    emphFix (emphFix cs) = emphFix cs :=
  emphLoop_noop fun t ht => emphLoop_out_texts cs false h t ht


theorem processCits_cons_def (refs : List CitationRef) (k : BibliographyKey)
    (bib : Bibliography) (c : Citation) (rest : List Citation) (counter : Option Int) :
    processCits refs k bib (c :: rest) counter =
      Option.bind (ntt (buildCitationNode refs k bib c)) fun n =>
        Option.bind (processCits refs k bib rest
          (if bib.list_ = "enumerated" then counter.map (· + 1) else counter)) fun x =>
          some (n :: x.1, x.2) := rfl


theorem buildAll_cons_def (refs : List CitationRef) (k : BibliographyKey)
    (bib : Bibliography) (c : Citation) (rest : List Citation) :
    buildAll refs k bib (c :: rest) =
      Option.bind (ntt (buildCitationNode refs k bib c)) fun n =>
        Option.bind (buildAll refs k bib rest) fun ns => some (n :: ns) := rfl


theorem processCits_eq : ∀ (refs : List CitationRef) (k : BibliographyKey)
    (bib : Bibliography) (cits : List Citation) (counter : Option Int),
    processCits refs k bib cits counter =
      (buildAll refs k bib cits).map fun es =>
        (es, if bib.list_ = "enumerated" then counter.map (· + (cits.length : Int))
             else counter) := by
  intro refs k bib cits
  induction cits with
  | nil =>
    intro counter
    rw [processCits, buildAll]
    rcases counter with _ | v <;> simp
  | cons c rest ih =>
    intro counter
    rw [processCits_cons_def, buildAll_cons_def]
    rcases hb : ntt (buildCitationNode refs k bib c) with _ | n
    · simp
    rw [Option.some_bind, Option.some_bind, ih]
    rcases hba : buildAll refs k bib rest with _ | es
    · simp
    simp only [Option.map_some', Option.some_bind, Option.some_inj, Prod.mk.injEq]
    refine ⟨trivial, ?_⟩
    by_cases he : bib.list_ = "enumerated"
    · rw [if_pos he, if_pos he, if_pos he]
      rcases counter with _ | v
      · rfl
      · simp only [Option.map_some', Option.some_inj, List.length_cons]
        push_cast
        ring
    · rw [if_neg he, if_neg he, if_neg he]


theorem processBib_eq (refs : List CitationRef) (hA : Attrs) (hC : List Node)
    (k : BibliographyKey) (bib : Bibliography) (cits : List Citation)
    (counter : Option Int) :
    processBib refs hA hC k bib cits counter =
      (buildAll refs k bib cits).map fun es =>
        (bibRender hA hC bib cits (bibStart bib counter) es,
         bibCounterAfter bib counter cits.length) := by
  rw [processBib, processCits_eq]
  rcases hba : buildAll refs k bib cits with _ | es
  · rfl
  by_cases he : bib.list_ = "enumerated"
  · rcases counter with _ | v <;>
      simp [he, bibRender, bibStart, bibCounterAfter, enumListAttrs]
  · by_cases hbu : bib.list_ = "bullet" <;>
      simp [he, hbu, bibRender, bibStart, bibCounterAfter]


theorem buildAll_cons_some {refs : List CitationRef} {k : BibliographyKey}
    {bib : Bibliography} {c : Citation} {rest : List Citation} {es : List Node}
    (h : buildAll refs k bib (c :: rest) = some es) :
    ∃ n ns, ntt (buildCitationNode refs k bib c) = some n ∧
      buildAll refs k bib rest = some ns ∧ es = n :: ns := by
  rw [buildAll_cons_def] at h
  rcases h1 : ntt (buildCitationNode refs k bib c) with _ | n <;> rw [h1] at h
  · exact absurd h (by simp)
  simp only [Option.some_bind] at h
  rcases h2 : buildAll refs k bib rest with _ | ns <;> rw [h2] at h
  · exact absurd h (by simp)
  simp only [Option.some_bind, Option.some_inj] at h
  exact ⟨n, ns, rfl, rfl, h.symm⟩


theorem buildAll_some {refs : List CitationRef} {k : BibliographyKey}
    {bib : Bibliography} : ∀ {cits : List Citation} {es : List Node},
    buildAll refs k bib cits = some es →
    es.length = cits.length ∧
      ∀ i c, cits.get? i = some c →
        es.get? i = ntt (buildCitationNode refs k bib c) := by
  intro cits
  induction cits with
  | nil =>
    intro es h
    rw [buildAll, Option.some_inj] at h
    refine ⟨by rw [← h]; rfl, ?_⟩
    intro i c hc
    rw [List.get?_nil] at hc
    exact absurd hc (by simp)
  | cons c rest ih =>
    intro es h
    obtain ⟨n, ns, h1, h2, h3⟩ := buildAll_cons_some h
    obtain ⟨hl, hp⟩ := ih h2
    subst h3
    refine ⟨by rw [List.length_cons, List.length_cons, hl], ?_⟩
    intro i d hd
    cases i with
    | zero =>
      rw [List.get?_cons_zero, Option.some_inj] at hd
      rw [List.get?_cons_zero, ← hd, h1]
    | succ j =>
      rw [List.get?_cons_succ] at hd ⊢
      exact hp j d hd


theorem nodupB_spec : ∀ {l : List (List Char)}, nodupB l = true → l.Nodup := by
  intro l
  induction l with
  | nil => intro _; exact List.nodup_nil
  | cons t ts ih =>
    intro h
    rw [nodupB, Bool.and_eq_true, Bool.not_eq_true'] at h
    refine List.nodup_cons.mpr ⟨?_, ih h.2⟩
    intro hmem
    have := h.1
    simp [hmem] at this


theorem stripFreeB_spec {cs : List Node} (h : stripFreeB cs = true) :
    StripFree cs := by
  intro t ht hs hmem
  rw [stripFreeB, List.all_eq_true] at h
  have h1 := h t ht
  rw [hs] at h1
  simp at h1
  exact absurd hmem h1


theorem cleanLB_spec {cs : List Node} (h : cleanLB cs = true) : CleanList cs := by
  rw [cleanLB, Bool.and_eq_true, Bool.and_eq_true] at h
  exact ⟨nodupB_spec h.1.1, stripFreeB_spec h.1.2, h.2⟩


theorem cleanNB_spec : ∀ n, cleanNB n = true → CleanNode n := by
  intro n
  induction n using Node.induct with
  | ht s => intro _; rw [CleanNode]; trivial
  | he a cs ih =>
    intro h
    rw [cleanNB, Bool.and_eq_true] at h
    rw [CleanNode]
    refine ⟨cleanLB_spec h.1, ?_⟩
    have h2 := h.2
    clear h
    induction cs with
    | nil => rw [CleanChildren]; trivial
    | cons c rest ihc =>
      rw [cleanCB, Bool.and_eq_true] at h2
      rw [CleanChildren]
      exact ⟨ih c (List.mem_cons_self _ _) h2.1,
        ihc (fun d hd => ih d (List.mem_cons_of_mem _ hd)) h2.2⟩


theorem emphSafeB_spec {cs : List Node} (h : emphSafeB cs = true) : EmphSafe cs := by
  intro t ht hs
  rw [emphSafeB, List.all_eq_true] at h
  have h1 := h (Node.text t) ht
  simp only [hs] at h1
  simpa using h1


theorem noTextitB_spec {cs : List Node} (h : noTextitB cs = true) :
    ∀ t, Node.text t ∈ cs → textitM.isSuffixOf t = false := by
  intro t ht
  rw [noTextitB, List.all_eq_true] at h
  have h1 := h (Node.text t) ht
  simpa using h1


theorem posMap_length : ∀ (s : List Node) (f : Bool),
    (posMap f s).length = s.length := by
  intro s
  induction s with
  | nil => intro f; rw [posMap_nil]
  | cons c rest ih =>
    intro f
    cases f with
    | true => rw [posMap_true_cons, List.length_cons, List.length_cons, ih]
    | false =>
      cases c with
      | element b ds => rw [posMap_false_elem, List.length_cons, List.length_cons, ih]
      | text t =>
        rcases rest with _ | ⟨d, r⟩
        · rw [posMap_false_text_nil]
        cases d with
        | element b ds =>
          rw [posMap_false_text_elem, List.length_cons, List.length_cons, ih]
        | text u =>
          cases hs : urlM.isSuffixOf t with
          | true =>
            rw [posMap_tt, hs, if_pos rfl, List.length_cons, List.length_cons, ih]
          | false =>
            rw [posMap_tt, hs, if_neg (by simp), List.length_cons,
              List.length_cons, ih]


theorem nttList_length {cs cs1 : List Node} (h : nttList cs = some cs1) :
    cs1.length = cs.length := by
  have := nttList_skels h
  have h1 : (skels cs1).length = (skels cs).length := by rw [this]
  rw [skels, skels, List.length_map, List.length_map] at h1
  exact h1


theorem nttList_append : ∀ (l1 l2 : List Node),
    nttList (l1 ++ l2) = Option.bind (nttList l1) fun a =>
      Option.bind (nttList l2) fun b => some (a ++ b) := by
  intro l1
  induction l1 with
  | nil =>
    intro l2
    rw [List.nil_append, nttList_nil, Option.some_bind]
    rcases h : nttList l2 with _ | b <;> simp
  | cons c l1 ih =>
    intro l2
    rw [List.cons_append, nttList_cons_def, nttList_cons_def, ih]
    rcases h1 : ntt c with _ | c'
    · simp
    rcases h2 : nttList l1 with _ | a <;> rcases h3 : nttList l2 with _ | b <;> simp


theorem nttList_total : ∀ {cs : List Node}, (∀ c ∈ cs, ∃ c', ntt c = some c') →
    ∃ cs1, nttList cs = some cs1 := by
  intro cs
  induction cs with
  | nil => intro _; exact ⟨[], rfl⟩
  | cons c rest ih =>
    intro h
    obtain ⟨c', hc⟩ := h c (List.mem_cons_self _ _)
    obtain ⟨cs', hcs⟩ := ih fun d hd => h d (List.mem_cons_of_mem _ hd)
    exact ⟨c' :: cs', by rw [nttList_cons_def, hc, Option.some_bind, hcs,
      Option.some_bind]⟩


theorem getLast?_cons_ne_nil {c : Node} {l : List Node} (h : l ≠ []) :
    (c :: l).getLast? = l.getLast? := by
  rcases l with _ | ⟨e, l'⟩
  · exact absurd rfl h
  · exact List.getLast?_cons_cons


/-- Splitting `posMap` across an append, provided no match fires across
the junction. -/
theorem posMap_append : ∀ (l1 : List Node),
    (∀ (l2 : List Node),
      (∀ w v r, l1.getLast? = some (.text w) → l2 = .text v :: r →
        urlM.isSuffixOf w = false) →
      posMap false (l1 ++ l2) = posMap false l1 ++ posMap false l2)
    ∧
    (∀ (l2 : List Node) (u : List Char) (l1' : List Node), l1 = .text u :: l1' →
      (∀ w v r, l1.getLast? = some (.text w) → l2 = .text v :: r →
        urlM.isSuffixOf w = false) →
      posMap true (l1 ++ l2) = posMap true l1 ++ posMap false l2) := by
  intro l1
  induction l1 with
  | nil =>
    exact ⟨fun l2 _ => by rw [List.nil_append, posMap_nil, List.nil_append],
      fun l2 u l1' h => absurd h (by simp)⟩
  | cons c l1 ih =>
    constructor
    · intro l2 hbd
      cases c with
      | element b ds =>
        rw [List.cons_append, posMap_false_elem, posMap_false_elem,
          List.cons_append, ih.1 l2 ?_]
        intro w v r hlast hl2
        rcases hl : l1 with _ | ⟨e, l1''⟩
        · rw [hl] at hlast; exact absurd hlast (by simp)
        · exact hbd w v r (by rw [getLast?_cons_ne_nil (by rw [hl]; simp)]; exact hlast) hl2
      | text t =>
        rcases hl : l1 with _ | ⟨e, l1''⟩
        · subst hl
          rcases l2 with _ | ⟨d, l2'⟩
          · rw [List.append_nil, posMap_nil, List.append_nil]
          cases d with
          | text v =>
            have hsw : urlM.isSuffixOf t = false := hbd t v l2' rfl rfl
            rw [List.singleton_append, posMap_tt, hsw, if_neg (by simp),
              posMap_false_text_nil, List.singleton_append]
          | element b ds =>
            rw [List.singleton_append, posMap_false_text_elem,
              posMap_false_text_nil, List.singleton_append]
        · subst hl
          have hbd' : ∀ w v r, (e :: l1'').getLast? = some (Node.text w) →
              l2 = .text v :: r → urlM.isSuffixOf w = false := by
            intro w v r hlast hl2
            exact hbd w v r (by rw [getLast?_cons_ne_nil (by simp)]; exact hlast) hl2
          cases e with
          | element b ds =>
            rw [List.cons_append, List.cons_append, posMap_false_text_elem,
              posMap_false_text_elem, ← List.cons_append, ih.1 l2 hbd',
              List.cons_append]
          | text u =>
            cases hs : urlM.isSuffixOf t with
            | false =>
              rw [List.cons_append, List.cons_append, posMap_tt, hs,
                if_neg (by simp), posMap_tt, hs, if_neg (by simp),
                ← List.cons_append, ih.1 l2 hbd', List.cons_append]
            | true =>
              rw [List.cons_append, List.cons_append, posMap_tt, hs, if_pos rfl,
                posMap_tt, hs, if_pos rfl, ← List.cons_append,
                ih.2 l2 u l1'' rfl hbd', List.cons_append]
    · intro l2 u l1' heq hbd
      obtain ⟨hc, hr⟩ : c = Node.text u ∧ l1 = l1' := by
        injection heq with h1 h2
        exact ⟨h1, h2⟩
      subst hc
      subst hr
      rw [List.cons_append, posMap_true_cons, posMap_true_cons, List.cons_append,
        ih.1 l2 ?_]
      intro w v r hlast hl2
      rcases hl : l1 with _ | ⟨e, l1''⟩
      · rw [hl] at hlast; exact absurd hlast (by simp)
      · exact hbd w v r (by rw [getLast?_cons_ne_nil (by rw [hl]; simp)]; exact hlast) hl2


theorem ovFreeS_head2 {w t u : List Char} {r : List (Option (List Char))}
    (h : ovFreeS (some w :: some t :: some u :: r) = true)
    (ht : urlM.isSuffixOf t = true) : urlM.isSuffixOf w = false := by
  rw [ovFreeS, Bool.and_eq_true] at h
  rcases Bool.or_eq_true _ _ |>.mp h.1 with h1 | h1
  · rw [Bool.not_eq_true'] at h1; exact h1
  · rw [Bool.not_eq_true'] at h1; exact absurd ht (by simp [h1])


theorem ovFree_getLast : ∀ (l1 : List Node) {t u : List Char} {l2 : List Node},
    ovFreeS (skels (l1 ++ .text t :: .text u :: l2)) = true →
    urlM.isSuffixOf t = true →
    ∀ w, l1.getLast? = some (.text w) → urlM.isSuffixOf w = false := by
  intro l1
  induction l1 with
  | nil =>
    intro t u l2 _ _ w hw
    exact absurd hw (by simp)
  | cons c l1 ih =>
    intro t u l2 hov ht w hw
    rcases hl : l1 with _ | ⟨e, l1''⟩
    · subst hl
      cases c with
      | element b ds => exact absurd hw (by simp)
      | text w' =>
        have hww : w' = w := by
          simp only [List.getLast?_singleton, Option.some_inj] at hw
          injection hw
        subst hww
        rw [List.singleton_append, skels_cons, skels_cons, skels_cons,
          show skel (Node.text w') = some w' from rfl,
          show skel (Node.text t) = some t from rfl,
          show skel (Node.text u) = some u from rfl] at hov
        exact ovFreeS_head2 hov ht
    · have hne : l1 ≠ [] := by rw [hl]; simp
      rw [getLast?_cons_ne_nil hne] at hw
      rw [List.cons_append, skels_cons] at hov
      exact ih (ovFreeS_tail hov) ht w hw


theorem ntt_clean_total : ∀ n, CleanNode n → ∃ n', ntt n = some n' := by
  intro n
  induction n using Node.induct with
  | ht s => exact fun _ => ⟨.text s, rfl⟩
  | he a cs ih =>
    intro h
    rw [CleanNode] at h
    obtain ⟨cs1, h1⟩ := nttList_total fun c hc => ih c hc (CleanChildren_mem h.2 c hc)
    obtain ⟨hnd, hsf, hov⟩ := CleanList_of_skels_eq (nttList_skels h1) h.1
    have hm := (nttTextLoop_master cs1).1 [] hnd (by simp [textsTL_nil]) hsf hov
    rw [List.nil_append, List.nil_append] at hm
    exact ⟨.element a (posMap false cs1), by
      rw [ntt_element_def, h1, Option.some_bind, hm, Option.some_bind]⟩


theorem ntt_clean_element {a : Attrs} {cs : List Node}
    (h : CleanNode (.element a cs)) :
    ∃ cs1, nttList cs = some cs1 ∧ skels cs1 = skels cs ∧
      ntt (.element a cs) = some (.element a (posMap false cs1)) := by
  rw [CleanNode] at h
  obtain ⟨cs1, h1⟩ :=
    nttList_total fun c hc => ntt_clean_total c (CleanChildren_mem h.2 c hc)
  obtain ⟨hnd, hsf, hov⟩ := CleanList_of_skels_eq (nttList_skels h1) h.1
  have hm := (nttTextLoop_master cs1).1 [] hnd (by simp [textsTL_nil]) hsf hov
  rw [List.nil_append, List.nil_append] at hm
  exact ⟨cs1, h1, nttList_skels h1, by
    rw [ntt_element_def, h1, Option.some_bind, hm, Option.some_bind]⟩


theorem runAll_nil (dom : BibtexDomain) (counter : Option Int) :
    runAll dom [] counter = some ([], counter) := rfl


theorem runAll_cons_def (dom : BibtexDomain) (k : BibliographyKey)
    (ks : List BibliographyKey) (counter : Option Int) :
    runAll dom (k :: ks) counter =
      Option.bind (runOne dom k counter) fun x =>
        Option.bind (runAll dom ks x.2) fun y => some (x.1 :: y.1, y.2) := rfl


theorem nttList_decomp {l1 rest cs1 : List Node}
    (h : nttList (l1 ++ rest) = some cs1) :
    ∃ A B, nttList l1 = some A ∧ nttList rest = some B ∧ cs1 = A ++ B := by
  rw [nttList_append] at h
  rcases h1 : nttList l1 with _ | A <;> rw [h1] at h
  · exact absurd h (by simp)
  simp only [Option.some_bind] at h
  rcases h2 : nttList rest with _ | B <;> rw [h2] at h
  · exact absurd h (by simp)
  simp only [Option.some_bind, Option.some_inj] at h
  exact ⟨A, B, rfl, rfl, h.symm⟩


/-- C1: for every bibliography placeholder with at least one recorded
citation, the transform renders exactly one entry node per matching
citation, in recorded order (not sorted by key), each entry being the
text-repaired pre-built node of its citation extended with that
citation's formatted entry (label and backend paragraph). -/
theorem c1_completeness_order
    (refs : List CitationRef) (hA : Attrs) (hC : List Node)
    (k : BibliographyKey) (bib : Bibliography) (cits : List Citation)
    (counter : Option Int) (node : Node) (cf : Option Int)
    (hne : cits ≠ [])
    (h : processBib refs hA hC k bib cits counter = some (node, cf)) :
    ∃ entries : List Node,
      entries.length = cits.length ∧
      (∀ i c, cits.get? i = some c →
        entries.get? i = ntt (buildCitationNode refs k bib c)) ∧
      node = .element hA (hC ++
        (if bib.list_ = "enumerated" then
          [.element (enumListAttrs bib.enumtype (bibStart bib counter)) entries]
         else if bib.list_ = "bullet" then
          [.element { tag := "bullet_list" } entries]
         else entries)) := by
  rw [processBib_eq] at h
  rcases hba : buildAll refs k bib cits with _ | es <;> rw [hba] at h
  · exact absurd h (by simp)
  simp only [Option.map_some', Option.some_inj, Prod.mk.injEq] at h
  obtain ⟨hnode, _⟩ := h
  obtain ⟨hlen, hp⟩ := buildAll_some hba
  refine ⟨es, hlen, hp, ?_⟩
  rw [← hnode, bibRender, if_pos hne]


/-- C6: a placeholder with no matching citations is replaced by an inert
empty `target` node — no header, no list, no error. -/
theorem c6_empty_bibliography (dom : BibtexDomain) (k : BibliographyKey)
    (counter : Option Int)
    (hfilter : (dom.citations.filter fun c => c.bibliography_key == k) = []) :
    runOne dom k counter =
      some (.element { tag := "target" } [],
        bibCounterAfter (dom.bibliographies k) counter 0) := by
  rw [runOne, hfilter, processBib_eq,
    show buildAll dom.citation_refs k (dom.bibliographies k) [] = some [] from rfl]
  simp [bibRender]


/-- C9: an enumerated bibliography whose requested start is below 1
behaves exactly like one with no explicit start: any two start values
below 1 give the same result, the visible start is read from the shared
counter (1 when never initialized), and the counter afterwards is that
visible start plus the number of entries. -/
theorem c9_start_fallback
    (refs : List CitationRef) (hA : Attrs) (hC : List Node) (k : BibliographyKey)
    (bib : Bibliography) (cits : List Citation) (counter : Option Int) (s' : Int)
    (he : bib.list_ = "enumerated") (hs : bib.start < 1) (hs' : s' < 1) :
    processBib refs hA hC k { bib with start := s' } cits counter =
      processBib refs hA hC k bib cits counter ∧
    bibStart bib counter = counter.getD 1 ∧
    bibCounterAfter bib counter cits.length =
      some (counter.getD 1 + cits.length) := by
  have hb : ∀ c, buildCitationNode refs k { bib with start := s' } c =
      buildCitationNode refs k bib c := fun _ => rfl
  have hball : buildAll refs k { bib with start := s' } cits =
      buildAll refs k bib cits := by
    induction cits with
    | nil => rfl
    | cons c rest ih => rw [buildAll_cons_def, buildAll_cons_def, hb, ih]
  have hstart : bibStart { bib with start := s' } counter = bibStart bib counter := by
    rw [bibStart, bibStart,
      show ({ bib with start := s' } : Bibliography).start = s' from rfl,
      if_neg (by omega), if_neg (by omega)]
  refine ⟨?_, ?_, ?_⟩
  · rw [processBib_eq, processBib_eq, hball]
    rcases buildAll refs k bib cits with _ | es
    · rfl
    · simp only [Option.map_some', Option.some_inj, Prod.mk.injEq]
      constructor
      · rw [bibRender, bibRender, hstart]
      · rw [bibCounterAfter, bibCounterAfter, hstart]
  · rw [bibStart, if_neg (by omega)]
  · rw [bibCounterAfter, if_pos he, bibStart, if_neg (by omega)]


/-- C2: two enumerated bibliographies processed in one document build,
threading the shared counter: with no explicit start the first is
numbered from 1, the second continues at 1 + n1, and the final counter is
the second visible start plus the second size; an explicit start of at
least 1 on the second resets its numbering without affecting the first,
whose rendering is independent of the second bibliography's start. -/
theorem c2_counter_continuity
    (dom : BibtexDomain) (k1 k2 : BibliographyKey) (n1 n2 : Nat)
    (ns : List Node) (cf : Option Int)
    (h1e : (dom.bibliographies k1).list_ = "enumerated")
    (h2e : (dom.bibliographies k2).list_ = "enumerated")
    (h1s : (dom.bibliographies k1).start < 1)
    (hn1 : (dom.citations.filter fun c => c.bibliography_key == k1).length = n1)
    (hn2 : (dom.citations.filter fun c => c.bibliography_key == k2).length = n2)
    (h : runAll dom [k1, k2] none = some (ns, cf)) :
    cf = some ((if (dom.bibliographies k2).start ≥ 1 then (dom.bibliographies k2).start
        else 1 + (n1 : Int)) + (n2 : Int)) ∧
    ∃ node1 node2, ns = [node1, node2] ∧
      (n1 ≠ 0 → ∃ es1 : List Node, es1.length = n1 ∧
        node1 = .element dom.header_attrs (dom.header_children ++
          [.element (enumListAttrs (dom.bibliographies k1).enumtype 1) es1])) ∧
      (n2 ≠ 0 → ∃ es2 : List Node, es2.length = n2 ∧
        node2 = .element dom.header_attrs (dom.header_children ++
          [.element (enumListAttrs (dom.bibliographies k2).enumtype
            (if (dom.bibliographies k2).start ≥ 1 then (dom.bibliographies k2).start
             else 1 + (n1 : Int))) es2])) := by
  rw [runAll_cons_def] at h
  rcases hr1 : runOne dom k1 none with _ | x1 <;> rw [hr1] at h
  · exact absurd h (by simp)
  rcases x1 with ⟨nd1, c1⟩
  simp only [Option.some_bind] at h
  rw [runAll_cons_def] at h
  rcases hr2 : runOne dom k2 c1 with _ | x2 <;> rw [hr2] at h
  · exact absurd h (by simp)
  rcases x2 with ⟨nd2, c2⟩
  simp only [Option.some_bind, runAll_nil, Option.some_inj, Prod.mk.injEq] at h
  obtain ⟨hns, hcf⟩ := h
  -- characterize the first bibliography
  rw [runOne, processBib_eq] at hr1
  rcases hb1 : buildAll dom.citation_refs k1 (dom.bibliographies k1)
      (dom.citations.filter fun c => c.bibliography_key == k1) with _ | es1 <;>
    rw [hb1] at hr1
  · exact absurd hr1 (by simp)
  simp only [Option.map_some', Option.some_inj, Prod.mk.injEq] at hr1
  obtain ⟨hnd1, hc1⟩ := hr1
  have hstart1 : bibStart (dom.bibliographies k1) none = 1 := by
    rw [bibStart, if_neg (by omega)]
    rfl
  have hc1v : c1 = some (1 + (n1 : Int)) := by
    rw [← hc1, bibCounterAfter, if_pos h1e, hstart1, hn1]
  -- characterize the second bibliography
  rw [runOne, processBib_eq] at hr2
  rcases hb2 : buildAll dom.citation_refs k2 (dom.bibliographies k2)
      (dom.citations.filter fun c => c.bibliography_key == k2) with _ | es2 <;>
    rw [hb2] at hr2
  · exact absurd hr2 (by simp)
  simp only [Option.map_some', Option.some_inj, Prod.mk.injEq] at hr2
  obtain ⟨hnd2, hc2⟩ := hr2
  have hstart2 : bibStart (dom.bibliographies k2) c1 =
      (if (dom.bibliographies k2).start ≥ 1 then (dom.bibliographies k2).start
       else 1 + (n1 : Int)) := by
    rw [bibStart, hc1v]
    by_cases h2s : (dom.bibliographies k2).start ≥ 1
    · rw [if_pos h2s, if_pos h2s]
    · rw [if_neg h2s, if_neg h2s]
      rfl
  constructor
  · rw [← hcf, ← hc2, bibCounterAfter, if_pos h2e, hstart2, hn2]
  refine ⟨nd1, nd2, hns.symm, ?_, ?_⟩
  · intro hne1
    have hfne : (dom.citations.filter fun c => c.bibliography_key == k1) ≠ [] := by
      intro h0
      rw [h0] at hn1
      simp only [List.length_nil] at hn1
      exact hne1 hn1.symm
    refine ⟨es1, ?_, ?_⟩
    · rw [(buildAll_some hb1).1, hn1]
    · rw [← hnd1, bibRender, if_pos hfne, if_pos h1e, hstart1]
  · intro hne2
    have hfne : (dom.citations.filter fun c => c.bibliography_key == k2) ≠ [] := by
      intro h0
      rw [h0] at hn2
      simp only [List.length_nil] at hn2
      exact hne2 hn2.symm
    refine ⟨es2, ?_, ?_⟩
    · rw [(buildAll_some hb2).1, hn2]
    · rw [← hnd2, bibRender, if_pos hfne, if_pos h2e, hstart2]


/-- C5: in a citation-style bibliography the back-reference targets
attached to an entry are exactly the ids of the citation refs recorded in
the same document whose key set contains the entry's key; every attached
id originates from such a same-document ref, so a ref recorded in another
document is never selected. -/
theorem c5_backrefs_scoped
    (refs : List CitationRef) (hA : Attrs) (hC : List Node) (k : BibliographyKey)
    (bib : Bibliography) (cits : List Citation) (counter : Option Int)
    (node : Node) (cf : Option Int) (i : Nat) (c : Citation)
    (hm1 : bib.list_ ≠ "enumerated") (hm2 : bib.list_ ≠ "bullet")
    (h : processBib refs hA hC k bib cits counter = some (node, cf))
    (hc : cits.get? i = some c)
    (hpre : ((bib.citation_nodes c.key).1).backrefs = []) :
    ∃ (entries : List Node) (a' : Attrs) (cs' : List Node),
      node = .element hA (hC ++ entries) ∧
      entries.get? i = some (.element a' cs') ∧
      a'.backrefs = (refs.filter fun r =>
        k.docname = r.docname ∧ c.key ∈ r.keys).map (·.citation_ref_id) ∧
      (∀ id ∈ a'.backrefs, ∃ r ∈ refs,
        r.docname = k.docname ∧ c.key ∈ r.keys ∧ r.citation_ref_id = id) := by
  have hne : cits ≠ [] := by
    intro h0
    rw [h0, List.get?_nil] at hc
    exact absurd hc (by simp)
  have hlt : i < cits.length := by
    rcases List.get?_eq_some.mp hc with ⟨hl, _⟩
    exact hl
  rw [processBib_eq] at h
  rcases hba : buildAll refs k bib cits with _ | es <;> rw [hba] at h
  · exact absurd h (by simp)
  simp only [Option.map_some', Option.some_inj, Prod.mk.injEq] at h
  obtain ⟨hnode, _⟩ := h
  obtain ⟨hlen, hp⟩ := buildAll_some hba
  have hei := hp i c hc
  have hesi : ∃ e, es.get? i = some e := by
    rcases hes : es.get? i with _ | e
    · rw [List.get?_eq_none] at hes
      omega
    · exact ⟨e, rfl⟩
  obtain ⟨e, hes⟩ := hesi
  rw [hes] at hei
  rcases hcn : bib.citation_nodes c.key with ⟨ca, ccs⟩
  have hpre2 : ca.backrefs = [] := by rw [hcn] at hpre; exact hpre
  have hbuild : buildCitationNode refs k bib c =
      .element { (if ((refs.filter fun r =>
            k.docname = r.docname ∧ c.key ∈ r.keys).map (·.citation_ref_id)) ≠ [] then
          { ca with backrefs := (refs.filter fun r =>
              k.docname = r.docname ∧ c.key ∈ r.keys).map (·.citation_ref_id) }
        else ca) with docname := k.docname }
        (ccs ++ [labelNode c.formatted_entry.label,
                 backendParagraph c.formatted_entry]) := by
    simp only [buildCitationNode, hcn]
    rw [if_neg (show ¬(bib.list_ = "enumerated" ∨ bib.list_ = "bullet") from by
      simp [hm1, hm2])]
  have hattrB : ({ (if ((refs.filter fun r =>
        k.docname = r.docname ∧ c.key ∈ r.keys).map (·.citation_ref_id)) ≠ [] then
      { ca with backrefs := (refs.filter fun r =>
          k.docname = r.docname ∧ c.key ∈ r.keys).map (·.citation_ref_id) }
    else ca) with docname := k.docname } : Attrs).backrefs =
      (refs.filter fun r =>
        k.docname = r.docname ∧ c.key ∈ r.keys).map (·.citation_ref_id) := by
    by_cases hbe : ((refs.filter fun r =>
        k.docname = r.docname ∧ c.key ∈ r.keys).map (·.citation_ref_id)) = []
    · rw [if_neg (not_not_intro hbe)]
      rw [hbe]
      exact hpre2
    · rw [if_pos hbe]
  rw [hbuild] at hei
  obtain ⟨cs1, cs2, _, _, hm⟩ := ntt_element_some hei.symm
  refine ⟨es, _, cs2,
    by rw [← hnode, bibRender, if_pos hne, if_neg hm1, if_neg hm2],
    by rw [hes, hm], hattrB, ?_⟩
  rw [hattrB]
  intro id hid
  obtain ⟨r, hrf, hrid⟩ := List.mem_map.mp hid
  rw [List.mem_filter] at hrf
  obtain ⟨hrmem, hrp⟩ := hrf
  rw [decide_eq_true_eq] at hrp
  exact ⟨r, hrmem, hrp.1.symm, hrp.2, hrid⟩


/-- C3 counterexample: a citation paragraph whose only child is a text
fragment ending with `\textit ` has no following fragment to wrap, yet
the emphasis pass still strips the marker, so the subtree is changed. -/
theorem c3_counterexample :
    emphFix [.text "a\\textit ".toList] ≠ [.text "a\\textit ".toList] := by
  decide


/-- C3 (amended): the link-recovery pass returns a subtree with no
marker-followed-by-text pair anywhere unchanged and cannot raise there;
the emphasis pass returns a paragraph with no marker-ending text child
unchanged (and, being total, never raises); but a marker-ending fragment
without the expected following fragment is still stripped of its markers
by the emphasis pass — only the wrapping is skipped. -/
theorem c3_incomplete_pattern_noop (n : Node) (cs l1 : List Node) (t : List Char)
    (hp : pristineN n = true)
    (hm : noTextitB cs = true)
    (htl : textitM.isSuffixOf t = true) :
    ntt n = some n ∧ emphFix cs = cs ∧
    emphFix (l1 ++ [.text t]) = emphLoop false l1 ++ [.text (removeTextit t)] := by
  refine ⟨ntt_pristine n hp, emphLoop_noop (noTextitB_spec hm), ?_⟩
  rw [emphFix, emphLoop_append, emphLoop_text, if_pos htl, emphLoop_nil]


/-- C4 counterexample: the emphasis pass is not idempotent on every
paragraph: removing the markers from `"\te\textit xtit \textit "` glues
the remaining pieces into a fresh `\textit `-ending fragment, which a
second run strips again while wrapping the following node once more. -/
theorem c4_counterexample :
    emphFix (emphFix [.text "\\te\\textit xtit \\textit ".toList, .text "B".toList]) ≠
      emphFix [.text "\\te\\textit xtit \\textit ".toList, .text "B".toList] := by
  decide


/-- C4 (amended): the link-recovery pass is idempotent (in the sense that
rerunning it on a successful result is the identity, and a failure stays
a failure) on every subtree whose elements have pairwise distinct text
children, no marker-stripped collisions and no overlapping matches; the
emphasis pass is idempotent on every child list in which no marker-ending
text fragment strips to a fragment that again ends with the marker. -/
theorem c4_idempotent_amended (n : Node) (cs : List Node)
    (h1 : cleanNB n = true) (h2 : emphSafeB cs = true) :
    (ntt n).bind ntt = ntt n ∧ emphFix (emphFix cs) = emphFix cs :=
  ⟨ntt_clean_idem (cleanNB_spec n h1), emphFix_idem (emphSafeB_spec h2)⟩


/-- C8 counterexample: when the fragment following a marker-ending text
is itself a marker-ending text, it is stripped rather than wrapped: the
second output child is a bare text, not an emphasis node. -/
theorem c8_counterexample :
    emphFix [.text "a\\textit ".toList, .text "b\\textit ".toList,
      .text "c".toList] =
      [.text "a".toList, .text "b".toList, emphNode (.text "c".toList)] ∧
    ∀ x : Node,
      (emphFix [.text "a\\textit ".toList, .text "b\\textit ".toList,
        .text "c".toList]).get? 1 ≠ some (emphNode x) := by
  constructor
  · decide
  · intro x h
    rw [show (emphFix [.text "a\\textit ".toList, .text "b\\textit ".toList,
      .text "c".toList]).get? 1 = some (.text "b".toList) from rfl] at h
    rw [Option.some_inj] at h
    exact absurd h (by simp [emphNode])


/-- C8 (amended): a marker-ending text child is stripped of all its
markers and the immediately following sibling is wrapped in an emphasis
node, in one pass over direct children — provided that sibling is not
itself a marker-ending text fragment (in that case the sibling is
stripped instead and the wrap falls on the next child). -/
theorem c8_emphasis_repair_amended (l1 l2 : List Node) (t : List Char) (c : Node)
    (hsfx : textitM.isSuffixOf t = true)
    (hnext : ∀ u, c = Node.text u → textitM.isSuffixOf u = false) :
    emphFix (l1 ++ .text t :: c :: l2) =
      emphLoop false l1 ++
        .text (removeTextit t) :: emphNode c :: emphLoop false l2 := by
  rw [emphFix, emphLoop_append, emphLoop_text, if_pos hsfx]
  cases c with
  | text u =>
    rw [emphLoop_text, if_neg (by simp [hnext u rfl]), if_pos rfl]
  | element b ds =>
    rw [emphLoop_elem, if_pos rfl]


/-- C10: a paragraph text fragment ending with `\textit ` has every
occurrence of the marker removed, not only the trailing one, and the
following sibling is then processed with the wrap armed; in particular
`"\textit A \textit "` becomes `"A "`. -/
theorem c10_textit_remove_all (l1 l2 : List Node) (t : List Char)
    (hsfx : textitM.isSuffixOf t = true) :
    emphFix (l1 ++ .text t :: l2) =
      emphLoop false l1 ++ .text (removeTextit t) :: emphLoop true l2 ∧
    removeTextit ("\\textit A \\textit ".toList) = "A ".toList := by
  constructor
  · rw [emphFix, emphLoop_append, emphLoop_text, if_pos hsfx]
  · decide


/-- C7 counterexample: `Element.replace` locates the node to replace by
equality, so with duplicate sibling texts the fresh reference lands on
the first equal text, not on the fragment that followed the marker. -/
theorem c7_counterexample :
    ntt (.element { tag := "p" }
        [.text "x".toList, .text "a\\url ".toList, .text "x".toList]) =
      some (.element { tag := "p" }
        [refNode "x".toList, .text "a".toList, .text "x".toList]) ∧
    (Node.element { tag := "p" }
        [refNode "x".toList, .text "a".toList, .text "x".toList]) ≠
      (.element { tag := "p" }
        [.text "x".toList, .text "a".toList, refNode "x".toList]) := by
  constructor <;> decide


/-- C7 (amended): on a clean subtree (pairwise distinct text children,
no strip collisions, no overlapping matches at every level) an adjacent
pair (text ending `\url `, text) is repaired in place: the first fragment
loses its five-character suffix and the following fragment is replaced by
a reference whose refuri and single text child are that fragment's own
text; and the pass recurses into element children, repairing a nested
element in place inside any clean wrapper. -/
theorem c7_url_repair_amended
    (a : Attrs) (l1 l2 : List Node) (t u : List Char)
    (hcl : cleanNB (.element a (l1 ++ .text t :: .text u :: l2)) = true)
    (hsfx : urlM.isSuffixOf t = true) :
    (∃ out1 out2 : List Node, out1.length = l1.length ∧
      ntt (.element a (l1 ++ .text t :: .text u :: l2)) =
        some (.element a (out1 ++ .text (stripUrl t) :: refNode u :: out2)))
    ∧
    (∀ (b : Attrs) (m1 m2 : List Node),
      cleanNB (.element b
        (m1 ++ .element a (l1 ++ .text t :: .text u :: l2) :: m2)) = true →
      ∃ (m1' m2' : List Node) (inner : Node), m1'.length = m1.length ∧
        ntt (.element a (l1 ++ .text t :: .text u :: l2)) = some inner ∧
        ntt (.element b
            (m1 ++ .element a (l1 ++ .text t :: .text u :: l2) :: m2)) =
          some (.element b (m1' ++ inner :: m2'))) := by
  constructor
  · have hclean := cleanNB_spec _ hcl
    obtain ⟨cs1, h1, hsk, heq⟩ := ntt_clean_element hclean
    obtain ⟨A, B, hA1, hB1, hcs1⟩ := nttList_decomp h1
    obtain ⟨bt, B2, hbt, hB2, hBeq⟩ := nttList_cons_some hB1
    rw [ntt_text, Option.some_inj] at hbt
    obtain ⟨bu, B3, hbu, hB3, hB2eq⟩ := nttList_cons_some hB2
    rw [ntt_text, Option.some_inj] at hbu
    have hcs1' : cs1 = A ++ Node.text t :: Node.text u :: B3 := by
      rw [hcs1, hBeq, ← hbt, hB2eq, ← hbu]
    rw [CleanNode] at hclean
    obtain ⟨hnd1, hsf1, hov1⟩ := CleanList_of_skels_eq hsk hclean.1
    rw [hcs1'] at hov1
    have hbd : ∀ w v r, A.getLast? = some (.text w) →
        (Node.text t :: Node.text u :: B3) = .text v :: r →
        urlM.isSuffixOf w = false := by
      intro w v r hlast _
      exact ovFree_getLast A hov1 hsfx w hlast
    have hsplit := (posMap_append A).1 (Node.text t :: Node.text u :: B3) hbd
    refine ⟨posMap false A, posMap false B3, ?_, ?_⟩
    · rw [posMap_length, nttList_length hA1]
    · rw [heq, hcs1', hsplit, posMap_tt, if_pos hsfx, posMap_true_cons,
        show refWrapN (Node.text u) = refNode u from rfl]
  · intro b m1 m2 hclw
    have hcw := cleanNB_spec _ hclw
    obtain ⟨ws1, hw1, hwsk, hweq⟩ := ntt_clean_element hcw
    obtain ⟨M1, B', hM1, hB', hws⟩ := nttList_decomp hw1
    obtain ⟨inn, M2, hinn, hM2, hB'eq⟩ := nttList_cons_some hB'
    obtain ⟨X1, X2, _, _, hinnEq⟩ := ntt_element_some hinn
    have hbd2 : ∀ w v r, M1.getLast? = some (.text w) →
        (inn :: M2) = .text v :: r → urlM.isSuffixOf w = false := by
      intro w v r _ hcon
      rw [hinnEq] at hcon
      exact absurd hcon (by simp)
    have hsplit2 := (posMap_append M1).1 (inn :: M2) hbd2
    refine ⟨posMap false M1, posMap false M2, inn, ?_, hinn, ?_⟩
    · rw [posMap_length, nttList_length hM1]
    · rw [hweq, hws, hB'eq, hsplit2, hinnEq, posMap_false_elem]


set_option maxRecDepth 40000 in
/-- Witness for C1 at a concrete citation-mode bibliography with two
recorded citations. -/
theorem c1_witness :
    (([exCitX, exCitY] : List Citation) ≠ [] ∧
     processBib exDom.citation_refs { tag := "container" } [] exKey3 exCitBib
       [exCitX, exCitY] none =
         some (.element { tag := "container" } [exEntryNodeX, exEntryNodeY], none)) ∧
    ∃ entries : List Node,
      entries.length = ([exCitX, exCitY] : List Citation).length ∧
      (∀ i c, ([exCitX, exCitY] : List Citation).get? i = some c →
        entries.get? i = ntt (buildCitationNode exDom.citation_refs exKey3 exCitBib c)) ∧
      Node.element { tag := "container" } [exEntryNodeX, exEntryNodeY] =
        .element { tag := "container" } ([] ++
          (if exCitBib.list_ = "enumerated" then
            [.element (enumListAttrs exCitBib.enumtype (bibStart exCitBib none)) entries]
           else if exCitBib.list_ = "bullet" then
            [.element { tag := "bullet_list" } entries]
           else entries)) :=
  ⟨⟨by decide, by decide⟩,
   c1_completeness_order exDom.citation_refs { tag := "container" } [] exKey3
     exCitBib [exCitX, exCitY] none _ none (by decide) (by decide)⟩


set_option maxRecDepth 40000 in
/-- Witness for C2: sizes 3 and 2, neither specifying a start — numbered
1–3 and 4–5, final counter 6. -/
theorem c2_witness :
    ((exDom.bibliographies exKey1).list_ = "enumerated" ∧
     (exDom.bibliographies exKey2).list_ = "enumerated" ∧
     (exDom.bibliographies exKey1).start < 1 ∧
     (exDom.citations.filter fun c => c.bibliography_key == exKey1).length = 3 ∧
     (exDom.citations.filter fun c => c.bibliography_key == exKey2).length = 2 ∧
     runAll exDom [exKey1, exKey2] none = some ([exNode1, exNode2], some 6)) ∧
    ((some 6 : Option Int) =
      some ((if (exDom.bibliographies exKey2).start ≥ 1 then
          (exDom.bibliographies exKey2).start
        else 1 + ((3 : Nat) : Int)) + ((2 : Nat) : Int)) ∧
     ∃ node1 node2, ([exNode1, exNode2] : List Node) = [node1, node2] ∧
       ((3 : Nat) ≠ 0 → ∃ es1 : List Node, es1.length = 3 ∧
         node1 = .element exDom.header_attrs (exDom.header_children ++
           [.element (enumListAttrs (exDom.bibliographies exKey1).enumtype 1) es1])) ∧
       ((2 : Nat) ≠ 0 → ∃ es2 : List Node, es2.length = 2 ∧
         node2 = .element exDom.header_attrs (exDom.header_children ++
           [.element (enumListAttrs (exDom.bibliographies exKey2).enumtype
             (if (exDom.bibliographies exKey2).start ≥ 1 then
               (exDom.bibliographies exKey2).start
              else 1 + ((3 : Nat) : Int))) es2]))) :=
  ⟨⟨by decide, by decide, by decide, by decide, by decide, by decide⟩,
   c2_counter_continuity exDom exKey1 exKey2 3 2 [exNode1, exNode2] (some 6)
     (by decide) (by decide) (by decide) (by decide) (by decide) (by decide)⟩


set_option maxRecDepth 40000 in
/-- Witness for C5: a same-document ref citing `"x"` is attached, and the
other-document ref is never the origin of an attached id. -/
theorem c5_witness :
    (exCitBib.list_ ≠ "enumerated" ∧ exCitBib.list_ ≠ "bullet" ∧
     processBib exDom.citation_refs { tag := "container" } [] exKey3 exCitBib
       [exCitX] none = some (.element { tag := "container" } [exEntryNodeX], none) ∧
     ([exCitX] : List Citation).get? 0 = some exCitX ∧
     ((exCitBib.citation_nodes exCitX.key).1).backrefs = []) ∧
    ∃ (entries : List Node) (a' : Attrs) (cs' : List Node),
      Node.element { tag := "container" } [exEntryNodeX] =
        .element { tag := "container" } ([] ++ entries) ∧
      entries.get? 0 = some (.element a' cs') ∧
      a'.backrefs = (exDom.citation_refs.filter fun r =>
        exKey3.docname = r.docname ∧ exCitX.key ∈ r.keys).map (·.citation_ref_id) ∧
      (∀ id ∈ a'.backrefs, ∃ r ∈ exDom.citation_refs,
        r.docname = exKey3.docname ∧ exCitX.key ∈ r.keys ∧ r.citation_ref_id = id) :=
  ⟨⟨by decide, by decide, by decide, by decide, by decide⟩,
   c5_backrefs_scoped exDom.citation_refs { tag := "container" } [] exKey3 exCitBib
     [exCitX] none _ none 0 exCitX (by decide) (by decide) (by decide) (by decide)
     (by decide)⟩


/-- Witness for C6 at a key with no matching citations. -/
theorem c6_witness :
    (exDom.citations.filter fun c => c.bibliography_key == exKey4) = [] ∧
    runOne exDom exKey4 none =
      some (.element { tag := "target" } [],
        bibCounterAfter (exDom.bibliographies exKey4) none 0) :=
  ⟨by decide, c6_empty_bibliography exDom exKey4 none (by decide)⟩


/-- Witness for C9 with requested start `-3` and counter at 5. -/
theorem c9_witness :
    (exEnumBib.list_ = "enumerated" ∧ exEnumBib.start < 1 ∧ ((-3 : Int) < 1)) ∧
    (processBib exDom.citation_refs { tag := "container" } [] exKey1
        { exEnumBib with start := (-3 : Int) } [⟨exKey1, "a", exEntry⟩] (some 5) =
      processBib exDom.citation_refs { tag := "container" } [] exKey1 exEnumBib
        [⟨exKey1, "a", exEntry⟩] (some 5) ∧
     bibStart exEnumBib (some 5) = (some 5 : Option Int).getD 1 ∧
     bibCounterAfter exEnumBib (some 5)
         ([⟨exKey1, "a", exEntry⟩] : List Citation).length =
       some ((some 5 : Option Int).getD 1 +
         ([⟨exKey1, "a", exEntry⟩] : List Citation).length)) :=
  ⟨⟨rfl, by decide, by decide⟩,
   c9_start_fallback exDom.citation_refs { tag := "container" } [] exKey1 exEnumBib
     [⟨exKey1, "a", exEntry⟩] (some 5) (-3) rfl (by decide) (by decide)⟩


/-- Witness for C3 (amended): a pattern-free subtree and paragraph are
unchanged; a trailing marker fragment is stripped but not wrapped. -/
theorem c3_witness :
    (pristineN (.element { tag := "p" } [.text "hello".toList]) = true ∧
     noTextitB [.element { tag := "x" } []] = true ∧
     textitM.isSuffixOf "see \\textit ".toList = true) ∧
    (ntt (.element { tag := "p" } [.text "hello".toList]) =
       some (.element { tag := "p" } [.text "hello".toList]) ∧
     emphFix [.element { tag := "x" } []] = [.element { tag := "x" } []] ∧
     emphFix ([.text "q".toList] ++ [.text "see \\textit ".toList]) =
       emphLoop false [.text "q".toList] ++
         [.text (removeTextit "see \\textit ".toList)]) :=
  ⟨⟨by decide, by decide, by decide⟩,
   c3_incomplete_pattern_noop (.element { tag := "p" } [.text "hello".toList])
     [.element { tag := "x" } []] [.text "q".toList] "see \\textit ".toList
     (by decide) (by decide) (by decide)⟩


/-- Witness for C4 (amended) at a clean subtree and a safe paragraph. -/
theorem c4_witness :
    (cleanNB (.element { tag := "p" }
        [.text "See \\url ".toList, .text "http://x".toList]) = true ∧
     emphSafeB [.text "Review on \\textit ".toList, .text "E. coli ".toList] = true) ∧
    ((ntt (.element { tag := "p" }
        [.text "See \\url ".toList, .text "http://x".toList])).bind ntt =
       ntt (.element { tag := "p" }
         [.text "See \\url ".toList, .text "http://x".toList]) ∧
     emphFix (emphFix [.text "Review on \\textit ".toList, .text "E. coli ".toList]) =
       emphFix [.text "Review on \\textit ".toList, .text "E. coli ".toList]) :=
  ⟨⟨by decide, by decide⟩,
   c4_idempotent_amended (.element { tag := "p" }
       [.text "See \\url ".toList, .text "http://x".toList])
     [.text "Review on \\textit ".toList, .text "E. coli ".toList]
     (by decide) (by decide)⟩


/-- Witness for C7 (amended): the spec's own scenario
`["See \url ", "http://example.org"]`-style pair at the head of a clean
element. -/
theorem c7_witness :
    (cleanNB (.element { tag := "p" }
        ([] ++ .text "See \\url ".toList :: .text "http://x".toList :: [])) = true ∧
     urlM.isSuffixOf "See \\url ".toList = true) ∧
    ((∃ out1 out2 : List Node, out1.length = ([] : List Node).length ∧
       ntt (.element { tag := "p" }
           ([] ++ .text "See \\url ".toList :: .text "http://x".toList :: [])) =
         some (.element { tag := "p" }
           (out1 ++ .text (stripUrl "See \\url ".toList) ::
             refNode "http://x".toList :: out2)))
     ∧
     (∀ (b : Attrs) (m1 m2 : List Node),
       cleanNB (.element b (m1 ++ .element { tag := "p" }
         ([] ++ .text "See \\url ".toList :: .text "http://x".toList :: []) :: m2)) =
           true →
       ∃ (m1' m2' : List Node) (inner : Node), m1'.length = m1.length ∧
         ntt (.element { tag := "p" }
           ([] ++ .text "See \\url ".toList :: .text "http://x".toList :: [])) =
             some inner ∧
         ntt (.element b (m1 ++ .element { tag := "p" }
             ([] ++ .text "See \\url ".toList :: .text "http://x".toList :: []) :: m2)) =
           some (.element b (m1' ++ inner :: m2')))) :=
  ⟨⟨by decide, by decide⟩,
   c7_url_repair_amended { tag := "p" } [] [] "See \\url ".toList "http://x".toList
     (by decide) (by decide)⟩


/-- Witness for C8 (amended): the spec's own scenario
`["Review on \textit ", "E. coli ", "fermentation"]`. -/
theorem c8_witness :
    (textitM.isSuffixOf "Review on \\textit ".toList = true ∧
     ∀ u, (Node.text "E. coli ".toList : Node) = Node.text u →
       textitM.isSuffixOf u = false) ∧
    emphFix ([] ++ .text "Review on \\textit ".toList :: .text "E. coli ".toList ::
        [.text "fermentation".toList]) =
      emphLoop false [] ++ .text (removeTextit "Review on \\textit ".toList) ::
        emphNode (.text "E. coli ".toList) ::
          emphLoop false [.text "fermentation".toList] :=
  ⟨⟨by decide, fun u hu => by injection hu with h; rw [← h]; decide⟩,
   c8_emphasis_repair_amended [] [.text "fermentation".toList]
     "Review on \\textit ".toList (.text "E. coli ".toList) (by decide)
     (fun u hu => by injection hu with h; rw [← h]; decide)⟩


/-- Witness for C10 at the fragment `"\textit A \textit "`. -/
theorem c10_witness :
    textitM.isSuffixOf "\\textit A \\textit ".toList = true ∧
    (emphFix ([] ++ .text "\\textit A \\textit ".toList :: [.text "B".toList]) =
       emphLoop false [] ++ .text (removeTextit "\\textit A \\textit ".toList) ::
         emphLoop true [.text "B".toList] ∧
     removeTextit ("\\textit A \\textit ".toList) = "A ".toList) :=
  ⟨by decide, c10_textit_remove_all [] [.text "B".toList]
    "\\textit A \\textit ".toList (by decide)⟩

